import Mathlib

/-!
Verification development for the Catapult templating and title-normalization
subsystem.  Strings are modelled as `List Char`; the JavaScript source is
embedded shallowly: the regex `<<<(.*?)>>>` (with its leftmost, lazy,
dot-excludes-line-terminator semantics) becomes an explicit scanner,
JavaScript objects become association lists of `JsValue`s, and the
`String.prototype.replaceAll` / `RegExp.exec` loops become fueled structural
recursions (the fuel `s.length` strictly dominates the number of scan steps,
each of which consumes at least one character, so the zero-fuel branch is
unreachable and the recursion mirrors the JavaScript loop exactly).
-/

namespace Catapult

/-- Line-terminator characters, which JavaScript's `.` (without the `s` flag)
does not match: LF, CR, LINE SEPARATOR, PARAGRAPH SEPARATOR. -/
def isTerm (c : Char) : Bool :=
  c = '\n' || c = '\r' || c = ' ' || c = ' '

/-- Whitespace characters removed by JavaScript's `String.prototype.trim`. -/
def jsWhitespaceChars : List Char :=
  [' ', '\t', '\n', '\r', '\x0b', '\x0c', ' ', ' ',
   ' ', ' ', ' ', ' ', ' ', ' ', ' ',
   ' ', ' ', ' ', ' ', ' ', ' ', ' ',
   ' ', '　', '﻿']

/-- Character class test for `String.prototype.trim`. -/
def isJsSpace (c : Char) : Bool := jsWhitespaceChars.contains c

/-- Model of JavaScript `String.prototype.trim`: drop whitespace from both
ends. -/
def jsTrim (s : List Char) : List Char :=
  (s.dropWhile isJsSpace).rdropWhile isJsSpace

/-- Lazy search for the closing `>>>` of a placeholder, mirroring the regex
fragment `(.*?)>>>`: scan forward, succeeding at the first `>>>`, failing at a
line terminator (the lazy `.*?` cannot cross one) or at the end of input.
Returns the matched content and the remainder after the `>>>`. -/
def findClose : List Char → Option (List Char × List Char)
  | [] => none
  | c :: rest =>
      if c = '>' ∧ rest.take 2 = ['>', '>'] then some ([], rest.drop 2)
      else if isTerm c then none
      else (findClose rest).map (fun p => (c :: p.1, p.2))

/-- Attempt to match the regex `<<<(.*?)>>>` at the head of `s`: requires the
literal `<<<` and then a lazily-closed `>>>`. -/
def splitMatch (s : List Char) : Option (List Char × List Char) :=
  if s.take 3 = ['<', '<', '<'] then findClose (s.drop 3) else none

/-- Model of `str.replaceAll(/<<<(.*?)>>>/g, (m, key) => f(key))`: at each
position try to match; on success emit `f content` (never rescanned, as in
JavaScript) and continue after the match, otherwise emit one character and
advance.  Fueled; `fuel = s.length` suffices since every step consumes at
least one character. -/
def scanRepl (f : List Char → List Char) : Nat → List Char → List Char
  | 0, s => s
  | _ + 1, [] => []
  | fuel + 1, c :: rest =>
    match splitMatch (c :: rest) with
    | some (content, after) => f content ++ scanRepl f fuel after
    | none => c :: scanRepl f fuel rest

/-- `replaceAll` against the placeholder regex, with adequate fuel. -/
def replaceAll3 (f : List Char → List Char) (s : List Char) : List Char :=
  scanRepl f s.length s

/-- The contents (capture group 1) of every placeholder match in `s`, in scan
order — the sequence of `match[1]` values produced by the `regex.exec` loop. -/
def findMatches : Nat → List Char → List (List Char)
  | 0, _ => []
  | _ + 1, [] => []
  | fuel + 1, c :: rest =>
    match splitMatch (c :: rest) with
    | some (content, after) => content :: findMatches fuel after
    | none => findMatches fuel rest

/-- Placeholder-match contents of `s` with adequate fuel. -/
def matchKeys (s : List Char) : List (List Char) :=
  findMatches s.length s

/-- Model of `extractTemplateKeys` (templateUtils): iterate the regex over the
template; for each match, if the raw content is truthy (non-empty before
trimming, `if (match[1])`), add its trimmed form to the set.  JavaScript's
`Set` keeps insertion order and drops duplicates. -/
def extractTemplateKeys (template : List Char) : List (List Char) :=
  (matchKeys template).foldl
    (fun keys m =>
      if m = [] then keys
      else if jsTrim m ∈ keys then keys else keys ++ [jsTrim m]) []

/-- Values stored in a template context: JavaScript strings, numbers
(restricted to integers, which is all the context builders produce), nested
objects as association lists, and `null`.  `undefined` is modelled by
`Option.none` at use sites. -/
inductive JsValue where
  | str (s : List Char)
  | num (n : Int)
  | obj (fields : List (List Char × JsValue))
  | null

/-- First-match key lookup in a JavaScript object modelled as an association
list (object literals have unique keys, so first match is the match). -/
def lookupField : List (List Char × JsValue) → List Char → Option JsValue
  | [], _ => none
  | (k, v) :: rest, name => if k = name then some v else lookupField rest name

/-- Model of `path.split(".")` for the non-empty separator `"."`: split on
every dot, keeping empty segments, never returning an empty list. -/
def splitOnDot : List Char → List (List Char)
  | [] => [[]]
  | c :: rest =>
    if c = '.' then [] :: splitOnDot rest
    else
      match splitOnDot rest with
      | [] => [[c]]
      | p :: ps => (c :: p) :: ps

/-- One step of `getNestedValue`'s loop: step into `current[part]` when the
current value is a non-null object, otherwise the result is `undefined`
(`none`), matching the `typeof current !== "object"` / null / undefined
checks. -/
def nestedStep : Option JsValue → List Char → Option JsValue
  | some (JsValue.obj fields), part => lookupField fields part
  | _, _ => none

/-- Model of `getNestedValue` (templateUtils): split the path on dots and walk
the object one segment at a time. -/
def getNestedValue (object : JsValue) (path : List Char) : Option JsValue :=
  (splitOnDot path).foldl nestedStep (some object)

/-- Model of JavaScript `String(value)` on the `JsValue` domain (the `null`
case is unreachable in `applyTemplate`, which tests for null first). -/
def jsToString : JsValue → List Char
  | JsValue.str s => s
  | JsValue.num n => (toString n).data
  | JsValue.obj _ => "[object Object]".data
  | JsValue.null => "null".data

/-- The sentinel substituted for unresolvable placeholders. -/
def MISSING_PLACEHOLDER : List Char := "<<<missing>>>".data

/-- Truthiness-style emptiness test used by `applyTemplate`'s guard
`value !== undefined && value !== null && value !== ""` (the `some` side). -/
def isNullOrEmptyStr : JsValue → Bool
  | JsValue.null => true
  | JsValue.str [] => true
  | _ => false

/-- The replacer callback of `applyTemplate`'s substitution pass: trim the
key, resolve it with `getNestedValue`; substitute the trimmed string form of a
non-null, non-empty value; otherwise keep the full match, except on the last
allowed iteration where the sentinel is substituted. -/
def templateReplacer (context : JsValue) (isLast : Bool) (content : List Char) :
    List Char :=
  match getNestedValue context (jsTrim content) with
  | some v =>
    if isNullOrEmptyStr v then
      if isLast then MISSING_PLACEHOLDER
      else '<' :: '<' :: '<' :: (content ++ ['>', '>', '>'])
    else jsTrim (jsToString v)
  | none =>
    if isLast then MISSING_PLACEHOLDER
    else '<' :: '<' :: '<' :: (content ++ ['>', '>', '>'])

/-- One substitution pass of `applyTemplate`
(`result.replaceAll(regex, ...)`). -/
def substPass (context : JsValue) (isLast : Bool) (s : List Char) : List Char :=
  replaceAll3 (templateReplacer context isLast) s

/-- The `while (result !== previousResult && iteration < maxIterations)` loop
of `applyTemplate`.  `iteration` is incremented before each pass, and the pass
is a "last" pass exactly when the incremented counter reaches
`maxIterations`.  Fueled; `maxIterations + 1` units are enough because every
recursive call increments `iteration`, which the guard bounds by
`maxIterations`. -/
def renderLoop (context : JsValue) (maxIterations : Nat) :
    Nat → Nat → List Char → List Char → List Char
  | 0, _, result, _ => result
  | fuel + 1, iteration, result, previousResult =>
    if result ≠ previousResult ∧ iteration < maxIterations then
      renderLoop context maxIterations fuel (iteration + 1)
        (substPass context (iteration + 1 == maxIterations) result) result
    else result

/-- Model of `applyTemplate` (templateUtils): run the bounded substitution
loop starting from the template (with `previousResult` initialized to the
empty string), then one final pass replacing every remaining placeholder with
the sentinel. -/
def applyTemplate (template : List Char) (context : JsValue)
    (maxIterations : Nat := 10) : List Char :=
  replaceAll3 (fun _ => MISSING_PLACEHOLDER)
    (renderLoop context maxIterations (maxIterations + 1) 0 template [])

/-- Lowercase/uppercase ASCII letter pairs; the embedding models the
JavaScript case conversions on the ASCII alphabet. -/
def azPairs : List (Char × Char) :=
  [('a', 'A'), ('b', 'B'), ('c', 'C'), ('d', 'D'), ('e', 'E'), ('f', 'F'),
   ('g', 'G'), ('h', 'H'), ('i', 'I'), ('j', 'J'), ('k', 'K'), ('l', 'L'),
   ('m', 'M'), ('n', 'N'), ('o', 'O'), ('p', 'P'), ('q', 'Q'), ('r', 'R'),
   ('s', 'S'), ('t', 'T'), ('u', 'U'), ('v', 'V'), ('w', 'W'), ('x', 'X'),
   ('y', 'Y'), ('z', 'Z')]

/-- Model of `String.prototype.toUpperCase` on one character (ASCII case
mapping). -/
def upperChar (c : Char) : Char :=
  match azPairs.find? (fun p => p.1 == c) with
  | some p => p.2
  | none => c

/-- Model of `String.prototype.toLowerCase` on one character (ASCII case
mapping). -/
def lowerChar (c : Char) : Char :=
  match azPairs.find? (fun p => p.2 == c) with
  | some p => p.1
  | none => c

/-- Model of `String.prototype.toLowerCase`. -/
def lowerString (s : List Char) : List Char := s.map lowerChar

/-- The `FORBIDDEN_CHARS` replacement table of `normalizeMediaWikiFilename`,
in its source (insertion) order. -/
def FORBIDDEN_CHARS : List (Char × Char) :=
  [('#', '-'), ('<', '-'), ('>', '-'), ('[', '('), (']', ')'),
   ('\x7b', '('), ('\x7d', ')'), ('|', '-'), (':', '-')]

/-- Test whether a character is one of the forbidden keys of the
replacement table. -/
def forbiddenKey (c : Char) : Bool :=
  FORBIDDEN_CHARS.any (fun p => c == p.1)

/-- Step 1 of the normalizer: `normalized.replaceAll(forbidden, replacement)`
for each table entry in order; a single-character `replaceAll` is a map over
the characters. -/
def substForbiddenFold (s : List Char) : List Char :=
  FORBIDDEN_CHARS.foldl
    (fun acc p => acc.map (fun c => if c = p.1 then p.2 else c)) s

/-- Step 2 of the normalizer: `replaceAll(" ", "_")`. -/
def spaceToUnderscore (s : List Char) : List Char :=
  s.map (fun c => if c = ' ' then '_' else c)

/-- Step 3 of the normalizer: `replaceAll(/_+/g, "_")`, collapsing every run
of underscores to a single one. -/
def collapseU : List Char → List Char
  | [] => []
  | [c] => [c]
  | c :: d :: rest =>
    if c = '_' ∧ d = '_' then collapseU (d :: rest)
    else c :: collapseU (d :: rest)

/-- Model of `String.prototype.lastIndexOf(".")`: index of the last dot, `-1`
when there is none. -/
def lastIndexOfDot : List Char → Int
  | [] => -1
  | c :: rest =>
    if lastIndexOfDot rest ≥ 0 then lastIndexOfDot rest + 1
    else if c = '.' then 0 else -1

/-- Underscore test used by the edge trim. -/
def isUnderscore (c : Char) : Bool := c = '_'

/-- Model of `replaceAll(/^_+|_+$/g, "")`: remove the leading and the trailing
run of underscores. -/
def trimUnderscores (s : List Char) : List Char :=
  (s.dropWhile isUnderscore).rdropWhile isUnderscore

/-- Step 4 of the normalizer: when the last dot sits at a positive index,
split there (`slice(0, lastDotIndex)` / `slice(lastDotIndex)`), trim
underscores off the name part only and keep the extension part; otherwise
trim the whole string. -/
def edgeTrimStep (s : List Char) : List Char :=
  if 0 < lastIndexOfDot s then
    trimUnderscores (s.take (lastIndexOfDot s).toNat)
      ++ s.drop (lastIndexOfDot s).toNat
  else trimUnderscores s

/-- Step 5 of the normalizer: `charAt(0).toUpperCase() + slice(1)` guarded by
`length > 0`. -/
def capitalizeFirst : List Char → List Char
  | [] => []
  | c :: rest => upperChar c :: rest

/-- Model of `normalizeMediaWikiFilename` (mediawikiUtils): empty input is
returned unchanged; otherwise the five rewrite steps run in order. -/
def normalizeMediaWikiFilename (filename : List Char) : List Char :=
  if filename = [] then filename
  else
    capitalizeFirst (edgeTrimStep (collapseU (spaceToUnderscore
      (substForbiddenFold filename))))

/-- Result record of `createUtilityContext`.  The `date` and `dateTime`
fields are produced by the external `formatExifDateOnly` /
`formatExifDateTime` helpers, which the embedding takes as already-computed
inputs (they do not interact with the extension/index logic). -/
structure UtilityCtx where
  extension : List Char
  index : Int
  date : Option (List Char)
  dateTime : Option (List Char)

/-- Model of `createUtilityContext` (utilityContext.ts): the extension is
`name.includes(".") ? name.split(".").pop()?.toLowerCase() ?? "" : ""` and
the derived index is the zero-based input incremented by one. -/
def createUtilityContext (name : List Char) (index : Int)
    (date dateTime : Option (List Char)) : UtilityCtx :=
  { extension :=
      if name.contains '.' then
        (((splitOnDot name).getLast?).map lowerString).getD []
      else []
    index := index + 1
    date := date
    dateTime := dateTime }

/-- Local calendar fields read off a valid JavaScript `Date` by the getters
used in `formatExifDate` (`getMonth` is zero-based, as in JavaScript). -/
structure DateFields where
  year : Int
  month : Int
  day : Int
  hour : Int
  minute : Int

/-- Input domain of `formatExifDate` (`unknown`): absent, null, boolean,
number, string, `Date` (invalid dates carry no fields, so `getTime()` is
`NaN`), or some other object. -/
inductive ExifValue where
  | undef
  | null
  | boolV (b : Bool)
  | num (n : Int)
  | str (s : List Char)
  | date (d : Option DateFields)
  | objV

/-- JavaScript falsiness on the `ExifValue` domain (`!dateValue`). -/
def exifFalsy : ExifValue → Bool
  | ExifValue.undef => true
  | ExifValue.null => true
  | ExifValue.boolV b => !b
  | ExifValue.num n => n == 0
  | ExifValue.str [] => true
  | _ => false

/-- Model of `dateValue.replace(/^(\d{4}):(\d{2}):(\d{2})/, "$1-$2-$3")`: when
the string starts with a colon-delimited `YYYY:MM:DD`, rewrite the two date
colons to dashes; otherwise return it unchanged. -/
def exifNormalize (s : List Char) : List Char :=
  match s with
  | a :: b :: c :: d :: ':' :: e :: f :: ':' :: g :: h :: rest =>
    if a.isDigit ∧ b.isDigit ∧ c.isDigit ∧ d.isDigit ∧ e.isDigit ∧ f.isDigit
        ∧ g.isDigit ∧ h.isDigit then
      a :: b :: c :: d :: '-' :: e :: f :: '-' :: g :: h :: rest
    else s
  | _ => s

/-- Model of `String(n).padStart(2, "0")` for an integer field. -/
def pad2 (n : Int) : List Char :=
  if (toString n).data.length < 2 then '0' :: (toString n).data
  else (toString n).data

/-- The template-literal formatting of `formatExifDate`:
`year-month-day hour:minute` with two-digit padding on all but the year. -/
def formatFields (f : DateFields) : List Char :=
  (toString f.year).data ++ '-' :: pad2 (f.month + 1) ++ '-' :: pad2 f.day
    ++ ' ' :: pad2 f.hour ++ ':' :: pad2 f.minute

/-- Model of `formatExifDate` (imageBlobStorage.ts), parameterized by the
host's string-to-date parser `parse` (the behavior of `new Date(string)`,
which the ECMAScript standard leaves partly implementation-defined; `none`
models an invalid date).  Falsy inputs are rejected first; `Date` instances
are used directly; strings are EXIF-normalized and parsed; every other value
returns `undefined`; invalid dates (`NaN` from `getTime()`) return
`undefined`. -/
def formatExifDate (parse : List Char → Option DateFields) (v : ExifValue) :
    Option (List Char) :=
  if exifFalsy v then none
  else
    match v with
    | ExifValue.date d =>
      match d with
      | none => none
      | some f => some (formatFields f)
    | ExifValue.str s =>
      match parse (exifNormalize s) with
      | none => none
      | some f => some (formatFields f)
    | _ => none

/-- Specification-side description of the extension source text, written from
the spec's words: the text after the last `.` of the filename, or the empty
string when the filename has no `.`.  Compared against the
`split(".").pop()` computation of `createUtilityContext`. -/
def textAfterLastDot (name : List Char) : List Char :=
  if 0 ≤ lastIndexOfDot name then name.drop ((lastIndexOfDot name).toNat + 1)
  else []

/-- Scanning `u`, a line terminator occurs strictly before any `>>>` and
before the end of `u`; consequently `findClose` fails on `u ++ v` for every
continuation `v`. -/
def blocked : List Char → Bool
  | [] => false
  | c :: rest =>
    if c = '>' ∧ rest.take 2 = ['>', '>'] then false
    else if isTerm c then true
    else blocked rest

/-! Helper lemmas about the JavaScript string primitives. -/

theorem dropWhile_self_idem (p : Char → Bool) (l : List Char) :
    l.dropWhile p = l → (l.dropWhile p).dropWhile p = l.dropWhile p := by
  intro h; rw [h, h]

theorem dropWhile_dropWhile_self (p : Char → Bool) (l : List Char) :
    (l.dropWhile p).dropWhile p = l.dropWhile p := by
  induction l with
  | nil => rfl
  | cons c rest ih =>
    by_cases h : p c
    · simp [List.dropWhile_cons, h, ih]
    · simp [List.dropWhile_cons, h]

theorem dropWhile_eq_self_of_head? (p : Char → Bool) (l : List Char)
    (h : ∀ c, l.head? = some c → p c = false) : l.dropWhile p = l := by
  cases l with
  | nil => rfl
  | cons c rest => simp [List.dropWhile_cons, h c rfl]

theorem head?_eq_of_isPre (l₁ l₂ : List Char) (hne : l₁ ≠ [])
    (h : ∃ t, l₁ ++ t = l₂) : l₂.head? = l₁.head? := by
  obtain ⟨t, rfl⟩ := h
  rw [List.head?_append]
  cases l₁ with
  | nil => exact absurd rfl hne
  | cons c cs => rfl

theorem jsTrim_of_dropWhile_fixed (u : List Char)
    (hu : u.dropWhile isJsSpace = u) :
    jsTrim (u.rdropWhile isJsSpace) = u.rdropWhile isJsSpace := by
  unfold jsTrim
  have h1 : (u.rdropWhile isJsSpace).dropWhile isJsSpace
      = u.rdropWhile isJsSpace := by
    apply dropWhile_eq_self_of_head?
    intro c hc
    have hne : u.rdropWhile isJsSpace ≠ [] := by
      intro hnil; rw [hnil] at hc; exact Option.noConfusion hc
    obtain ⟨t, ht⟩ := List.rdropWhile_prefix isJsSpace u
    have hh : u.head? = some c :=
      (head?_eq_of_isPre (u.rdropWhile isJsSpace) u hne ⟨t, ht⟩).trans hc
    cases hu2 : u with
    | nil => rw [hu2] at hh; exact Option.noConfusion hh
    | cons d ds =>
      rw [hu2] at hh
      have hd : d = c := by simpa using hh
      rw [hu2] at hu
      by_cases hsp2 : isJsSpace d
      · rw [List.dropWhile_cons, if_pos hsp2] at hu
        obtain ⟨t2, ht2⟩ := List.dropWhile_suffix (l := ds) isJsSpace
        rw [hu] at ht2
        have := congrArg List.length ht2
        simp at this
        omega
      · rw [← hd]; simpa using hsp2
  rw [h1]
  rw [List.rdropWhile, List.rdropWhile, List.reverse_reverse,
    dropWhile_dropWhile_self]

theorem jsTrim_idem (s : List Char) : jsTrim (jsTrim s) = jsTrim s := by
  have := jsTrim_of_dropWhile_fixed (s.dropWhile isJsSpace)
    (dropWhile_dropWhile_self isJsSpace s)
  simpa [jsTrim] using this

/-! Helper lemmas about `splitOnDot` and `lastIndexOfDot`. -/

theorem splitOnDot_ne_nil (l : List Char) : splitOnDot l ≠ [] := by
  cases l with
  | nil => simp [splitOnDot]
  | cons c rest =>
    by_cases h : c = '.'
    · simp [splitOnDot, h]
    · simp only [splitOnDot, if_neg h]
      cases splitOnDot rest <;> simp

theorem lastIndexOfDot_nonneg_iff (l : List Char) :
    0 ≤ lastIndexOfDot l ↔ '.' ∈ l := by
  induction l with
  | nil => simp [lastIndexOfDot]
  | cons c rest ih =>
    by_cases h : lastIndexOfDot rest ≥ 0
    · simp only [lastIndexOfDot, if_pos h]
      constructor
      · intro _; exact List.mem_cons_of_mem c (ih.mp h)
      · intro _; omega
    · by_cases hc : c = '.'
      · simp [lastIndexOfDot, if_neg h, hc]
      · simp only [lastIndexOfDot, if_neg h, if_neg hc]
        constructor
        · intro habs; omega
        · intro hm
          rcases List.mem_cons.mp hm with h1 | h2
          · exact absurd h1.symm hc
          · exact absurd (ih.mpr h2) h

theorem lastIndexOfDot_neg (l : List Char) (h : ¬ 0 ≤ lastIndexOfDot l) :
    lastIndexOfDot l = -1 := by
  induction l with
  | nil => rfl
  | cons c rest ih =>
    by_cases hr : lastIndexOfDot rest ≥ 0
    · simp only [lastIndexOfDot, if_pos hr] at h; omega
    · by_cases hc : c = '.'
      · simp [lastIndexOfDot, if_neg hr, hc] at h
      · simp [lastIndexOfDot, if_neg hr, hc]

theorem splitOnDot_of_no_dot (l : List Char) (h : '.' ∉ l) :
    splitOnDot l = [l] := by
  induction l with
  | nil => rfl
  | cons c rest ih =>
    have hc : c ≠ '.' := fun hh => h (by simp [hh])
    have hr : '.' ∉ rest := fun hh => h (List.mem_cons_of_mem c hh)
    simp [splitOnDot, hc, ih hr]

theorem splitOnDot_length_two_of_dot (l : List Char) (h : '.' ∈ l) :
    2 ≤ (splitOnDot l).length := by
  induction l with
  | nil => simp at h
  | cons c rest ih =>
    by_cases hc : c = '.'
    · have := splitOnDot_ne_nil rest
      simp only [splitOnDot, if_pos hc, List.length_cons]
      have : (splitOnDot rest).length ≥ 1 := by
        cases hsp : splitOnDot rest with
        | nil => exact absurd hsp (splitOnDot_ne_nil rest)
        | cons p ps => simp
      omega
    · have hr : '.' ∈ rest := by
        rcases List.mem_cons.mp h with h1 | h2
        · exact absurd h1.symm hc
        · exact h2
      have h2 := ih hr
      simp only [splitOnDot, if_neg hc]
      cases hsp : splitOnDot rest with
      | nil => exact absurd hsp (splitOnDot_ne_nil rest)
      | cons p ps => rw [hsp] at h2; simpa using h2

theorem splitOnDot_getLast (l : List Char) :
    ((splitOnDot l).getLast?).getD []
      = if 0 ≤ lastIndexOfDot l then l.drop ((lastIndexOfDot l).toNat + 1)
        else l := by
  induction l with
  | nil => simp [splitOnDot, lastIndexOfDot]
  | cons c rest ih =>
    by_cases hc : c = '.'
    · subst hc
      have hsplit : splitOnDot ('.' :: rest) = [] :: splitOnDot rest := by
        simp [splitOnDot]
      have hLast : ((splitOnDot ('.' :: rest)).getLast?).getD []
          = ((splitOnDot rest).getLast?).getD [] := by
        rw [hsplit]
        cases hsp : splitOnDot rest with
        | nil => exact absurd hsp (splitOnDot_ne_nil rest)
        | cons p ps => simp [List.getLast?_cons_cons]
      rw [hLast, ih]
      by_cases hr : 0 ≤ lastIndexOfDot rest
      · have hlast2 : lastIndexOfDot ('.' :: rest) = lastIndexOfDot rest + 1 := by
          simp only [lastIndexOfDot]
          rw [if_pos (by omega : lastIndexOfDot rest ≥ 0)]
        rw [hlast2, if_pos hr,
          if_pos (by omega : (0:Int) ≤ lastIndexOfDot rest + 1)]
        have htn : (lastIndexOfDot rest + 1).toNat
            = (lastIndexOfDot rest).toNat + 1 := by omega
        rw [htn]
        rfl
      · have hneg : lastIndexOfDot rest = -1 := lastIndexOfDot_neg rest hr
        have hlast2 : lastIndexOfDot ('.' :: rest) = 0 := by
          simp [lastIndexOfDot, hneg]
        rw [hlast2, if_neg hr, if_pos (by norm_num : (0:Int) ≤ 0)]
        simp
    · cases hsp : splitOnDot rest with
      | nil => exact absurd hsp (splitOnDot_ne_nil rest)
      | cons p ps =>
        have hsplit : splitOnDot (c :: rest) = (c :: p) :: ps := by
          simp [splitOnDot, hc, hsp]
        cases hps : ps with
        | nil =>
          have hnd : '.' ∉ rest := by
            intro hd
            have := splitOnDot_length_two_of_dot rest hd
            rw [hsp, hps] at this
            simp at this
          have hrneg : ¬ 0 ≤ lastIndexOfDot rest := by
            rw [lastIndexOfDot_nonneg_iff]; exact hnd
          have hrest : p = rest := by
            have := splitOnDot_of_no_dot rest hnd
            rw [hsp, hps] at this
            simpa using this
          have hneg : lastIndexOfDot rest = -1 := lastIndexOfDot_neg rest hrneg
          have hlast2 : lastIndexOfDot (c :: rest) = -1 := by
            simp [lastIndexOfDot, hneg, hc]
          rw [hsplit, hps, hlast2, hrest]
          simp
        | cons q qs =>
          have hlen : 2 ≤ (splitOnDot rest).length := by
            rw [hsp, hps]; simp
          have hd : '.' ∈ rest := by
            by_contra hnd
            have := splitOnDot_of_no_dot rest hnd
            rw [this] at hlen
            simp at hlen
          have hr : 0 ≤ lastIndexOfDot rest :=
            (lastIndexOfDot_nonneg_iff rest).mpr hd
          have hLast : ((splitOnDot (c :: rest)).getLast?).getD []
              = ((splitOnDot rest).getLast?).getD [] := by
            rw [hsplit, hsp, hps]
            simp [List.getLast?_cons_cons]
          rw [hLast, ih]
          have hlast2 : lastIndexOfDot (c :: rest) = lastIndexOfDot rest + 1 := by
            simp only [lastIndexOfDot]
            rw [if_pos (by omega : lastIndexOfDot rest ≥ 0)]
          rw [hlast2, if_pos hr,
            if_pos (by omega : (0:Int) ≤ lastIndexOfDot rest + 1)]
          have htn : (lastIndexOfDot rest + 1).toNat
              = (lastIndexOfDot rest).toNat + 1 := by omega
          rw [htn]
          rfl

/-! Generic facts about the key-set fold of `extractTemplateKeys`. -/

theorem extractFold_nodup (ms : List (List Char)) :
    ∀ acc : List (List Char), acc.Nodup →
      (ms.foldl
        (fun keys m =>
          if m = [] then keys
          else if jsTrim m ∈ keys then keys else keys ++ [jsTrim m]) acc).Nodup := by
  induction ms with
  | nil => intro acc h; exact h
  | cons m rest ih =>
    intro acc h
    simp only [List.foldl_cons]
    by_cases hm : m = []
    · rw [if_pos hm]; exact ih acc h
    · rw [if_neg hm]
      by_cases hmem : jsTrim m ∈ acc
      · rw [if_pos hmem]; exact ih acc h
      · rw [if_neg hmem]
        apply ih
        simp [List.nodup_append, h, hmem]

theorem extractFold_trimmed (ms : List (List Char)) :
    ∀ acc : List (List Char), (∀ k ∈ acc, jsTrim k = k) →
      ∀ k ∈ (ms.foldl
        (fun keys m =>
          if m = [] then keys
          else if jsTrim m ∈ keys then keys else keys ++ [jsTrim m]) acc),
        jsTrim k = k := by
  induction ms with
  | nil => intro acc h; exact h
  | cons m rest ih =>
    intro acc h
    simp only [List.foldl_cons]
    by_cases hm : m = []
    · rw [if_pos hm]; exact ih acc h
    · rw [if_neg hm]
      by_cases hmem : jsTrim m ∈ acc
      · rw [if_pos hmem]; exact ih acc h
      · rw [if_neg hmem]
        apply ih
        intro k hk
        rcases List.mem_append.mp hk with h1 | h2
        · exact h k h1
        · have : k = jsTrim m := by simpa using h2
          rw [this]
          exact jsTrim_idem m

/-- C5 counterexample: the claim says a whitespace-only placeholder key
contributes nothing, but `extractTemplateKeys` tests truthiness of the raw
(untrimmed) capture, so `"<<< >>>"` contributes the empty-string key rather
than nothing. -/
theorem extractTemplateKeys_whitespace_counterexample :
    extractTemplateKeys "<<< >>>".data = [[]]
      ∧ ([[]] : List (List Char)) ≠ [] := by
  exact ⟨rfl, by simp⟩

/-- C5 (amended): `extractTemplateKeys` returns the insertion-ordered set of
unique, trimmed placeholder keys; a placeholder whose raw key is the empty
string contributes nothing, while a whitespace-only key is truthy and
contributes the empty key after trimming; extracting from
`"A <<<x>>> B <<<y.z>>> C"` yields exactly the keys `x` and `y.z`. -/
theorem extractTemplateKeys_amended :
    (∀ t : List Char, (extractTemplateKeys t).Nodup)
    ∧ (∀ t : List Char, ∀ k ∈ extractTemplateKeys t, jsTrim k = k)
    ∧ extractTemplateKeys "A <<<x>>> B <<<y.z>>> C".data
        = ["x".data, "y.z".data]
    ∧ extractTemplateKeys "<<<>>>".data = []
    ∧ extractTemplateKeys "<<< >>>".data = [[]] := by
  refine ⟨fun t => extractFold_nodup (matchKeys t) [] (by simp),
    fun t => extractFold_trimmed (matchKeys t) [] (by simp), rfl, rfl, rfl⟩

/-- C8: the utility deriver returns, as `extension`, the lower-cased text
after the last `.` of the filename (empty when there is no `.`), and, as
`index`, the zero-based input incremented by one; in particular
`"Photo.JPG"` with index `5` yields `"jpg"` and `6`. -/
theorem createUtilityContext_extension_index :
    (∀ (name : List Char) (idx : Int) (d dt : Option (List Char)),
      (createUtilityContext name idx d dt).extension
          = lowerString (textAfterLastDot name)
        ∧ (createUtilityContext name idx d dt).index = idx + 1)
    ∧ (createUtilityContext "Photo.JPG".data 5 none none).extension
        = "jpg".data
    ∧ (createUtilityContext "Photo.JPG".data 5 none none).index = 6 := by
  refine ⟨fun name idx d dt => ⟨?_, rfl⟩, rfl, rfl⟩
  show (if name.contains '.' then
      (((splitOnDot name).getLast?).map lowerString).getD []
    else []) = lowerString (textAfterLastDot name)
  by_cases hdot : '.' ∈ name
  · have hcont : name.contains '.' = true := by
      simpa [List.contains] using hdot
    rw [if_pos hcont]
    have h0 : 0 ≤ lastIndexOfDot name :=
      (lastIndexOfDot_nonneg_iff name).mpr hdot
    have hGL := splitOnDot_getLast name
    rw [if_pos h0] at hGL
    unfold textAfterLastDot
    rw [if_pos h0]
    cases hsp : (splitOnDot name).getLast? with
    | none =>
      rw [List.getLast?_eq_none_iff] at hsp
      exact absurd hsp (splitOnDot_ne_nil name)
    | some q =>
      rw [hsp] at hGL
      simp only [Option.getD_some] at hGL
      simp [hGL]
  · have hcont : name.contains '.' = false := by
      simpa [List.contains] using hdot
    rw [if_neg (fun hh => by rw [hcont] at hh; exact Bool.noConfusion hh)]
    have h0 : ¬ 0 ≤ lastIndexOfDot name := by
      rw [lastIndexOfDot_nonneg_iff]; exact hdot
    unfold textAfterLastDot
    rw [if_neg h0]
    rfl

/-! The bounded render loop: fuel irrelevance once the fuel exceeds the
remaining iteration budget. -/

theorem renderLoop_fuel_irrel (context : JsValue) (maxIterations : Nat) :
    ∀ fuel₁ fuel₂ iteration result previousResult,
      maxIterations - iteration < fuel₁ → maxIterations - iteration < fuel₂ →
      renderLoop context maxIterations fuel₁ iteration result previousResult
        = renderLoop context maxIterations fuel₂ iteration result previousResult := by
  intro fuel₁
  induction fuel₁ with
  | zero => intro fuel₂ iteration result previousResult h1 _; omega
  | succ f ih =>
    intro fuel₂ iteration result previousResult h1 h2
    cases fuel₂ with
    | zero => omega
    | succ f2 =>
      show (if result ≠ previousResult ∧ iteration < maxIterations then _ else _)
        = (if result ≠ previousResult ∧ iteration < maxIterations then _ else _)
      by_cases hcond : result ≠ previousResult ∧ iteration < maxIterations
      · rw [if_pos hcond, if_pos hcond]
        exact ih f2 (iteration + 1) _ result (by omega) (by omega)
      · rw [if_neg hcond, if_neg hcond]

/-- C4: the render loop's pass count never exceeds the configured maximum —
any fuel beyond `maxIterations - iteration` yields the same result, so the
`maxIterations + 1` units that `applyTemplate` supplies are never exhausted —
and a direct cycle (a placeholder whose resolved value is the placeholder
itself) terminates with the sentinel at the placeholder's position. -/
theorem applyTemplate_iteration_bound_and_cycle :
    (∀ (context : JsValue) (maxIterations fuel₁ fuel₂ iteration : Nat)
        (result previousResult : List Char),
      maxIterations - iteration < fuel₁ → maxIterations - iteration < fuel₂ →
      renderLoop context maxIterations fuel₁ iteration result previousResult
        = renderLoop context maxIterations fuel₂ iteration result previousResult)
    ∧ applyTemplate "<<<a>>>".data
        (JsValue.obj [("a".data, JsValue.str "<<<a>>>".data)]) 10
        = MISSING_PLACEHOLDER := by
  exact ⟨fun context maxIterations fuel₁ fuel₂ iteration result previousResult
      h1 h2 => renderLoop_fuel_irrel context maxIterations fuel₁ fuel₂
        iteration result previousResult h1 h2, rfl⟩

/-- C4 witness: the fuel bound applied at a concrete state, with the
hypotheses discharged at `maxIterations = 10`, `iteration = 0`, fuels 11 and
99. -/
theorem applyTemplate_iteration_bound_and_cycle_witness :
    renderLoop (JsValue.obj []) 10 11 0 "<<<x>>>".data []
      = renderLoop (JsValue.obj []) 10 99 0 "<<<x>>>".data [] :=
  applyTemplate_iteration_bound_and_cycle.1 (JsValue.obj []) 10 11 99 0
    "<<<x>>>".data [] (by norm_num) (by norm_num)

/-- C1 (code bug): the render engine resolves an un-prefixed key with a bare
root-level `getNestedValue` lookup and never falls back to the `global`
layer, contradicting its own documentation comment ("Priority for
non-prefixed keys: local (root) > global (implicit fallback)"): with no local
`author` and a non-empty `global.author`, `<<<author>>>` renders to the
sentinel instead of the global value; a local value does win when present. -/
theorem applyTemplate_unprefixed_global_fallback_missing :
    applyTemplate "<<<author>>>".data
      (JsValue.obj [("global".data,
        JsValue.obj [("author".data, JsValue.str "JohnDoe".data)])]) 10
      = MISSING_PLACEHOLDER
    ∧ applyTemplate "<<<author>>>".data
      (JsValue.obj [("author".data, JsValue.str "Jane".data),
        ("global".data,
          JsValue.obj [("author".data, JsValue.str "JohnDoe".data)])]) 10
      = "Jane".data := by
  exact ⟨rfl, rfl⟩

/-- C9: `formatExifDate` accepts exactly three input shapes — a `Date` value
(used directly, invalid dates giving `undefined`), a string (EXIF-normalized
then given to the host date parser, unparseable strings giving `undefined`),
and nothing else — while absent, null, boolean, numeric and other-object
inputs yield `undefined` rather than an error; the machine EXIF shape
`"2024:01:15 10:30:00"` formats to `"2024-01-15 10:30"` under any host
parser that parses the normalized string to those local calendar fields. -/
theorem formatExifDate_shapes :
    (∀ parse, formatExifDate parse ExifValue.undef = none)
    ∧ (∀ parse, formatExifDate parse ExifValue.null = none)
    ∧ (∀ parse b, formatExifDate parse (ExifValue.boolV b) = none)
    ∧ (∀ parse n, formatExifDate parse (ExifValue.num n) = none)
    ∧ (∀ parse, formatExifDate parse ExifValue.objV = none)
    ∧ (∀ parse, formatExifDate parse (ExifValue.date none) = none)
    ∧ (∀ parse f, formatExifDate parse (ExifValue.date (some f))
        = some (formatFields f))
    ∧ (∀ parse s, s ≠ [] → formatExifDate parse (ExifValue.str s)
        = Option.map formatFields (parse (exifNormalize s)))
    ∧ (∀ parse : List Char → Option DateFields,
        parse "2024-01-15 10:30:00".data = some ⟨2024, 0, 15, 10, 30⟩ →
        formatExifDate parse (ExifValue.str "2024:01:15 10:30:00".data)
          = some "2024-01-15 10:30".data) := by
  refine ⟨fun _ => rfl, fun _ => rfl, fun parse b => by cases b <;> rfl,
    fun parse n => ?_, fun _ => rfl, fun _ => rfl, fun _ _ => rfl,
    fun parse s hs => ?_, fun parse hp => ?_⟩
  · by_cases hn : n = 0
    · subst hn; rfl
    · have : exifFalsy (ExifValue.num n) = false := by
        simp [exifFalsy, hn]
      simp [formatExifDate, this]
  · cases s with
    | nil => exact absurd rfl hs
    | cons c cs =>
      have : exifFalsy (ExifValue.str (c :: cs)) = false := rfl
      simp only [formatExifDate, this, Bool.false_eq_true, if_false]
      cases parse (exifNormalize (c :: cs)) <;> rfl
  · have hnorm : exifNormalize "2024:01:15 10:30:00".data
        = "2024-01-15 10:30:00".data := rfl
    show (match parse (exifNormalize "2024:01:15 10:30:00".data) with
      | none => none
      | some f => some (formatFields f)) = some "2024-01-15 10:30".data
    rw [hnorm, hp]
    rfl

/-- C9 witness: the EXIF-shape component applied to a concrete host parser
that parses exactly the normalized string. -/
theorem formatExifDate_shapes_witness :
    formatExifDate
      (fun s => if s = "2024-01-15 10:30:00".data
        then some ⟨2024, 0, 15, 10, 30⟩ else none)
      (ExifValue.str "2024:01:15 10:30:00".data)
      = some "2024-01-15 10:30".data :=
  formatExifDate_shapes.2.2.2.2.2.2.2.2
    (fun s => if s = "2024-01-15 10:30:00".data
      then some ⟨2024, 0, 15, 10, 30⟩ else none)
    (if_pos rfl)

/-- C5 witness: the trimmed-keys component applied at a concrete template and
key, with the membership hypothesis discharged by evaluation. -/
theorem extractTemplateKeys_amended_witness : jsTrim "x".data = "x".data :=
  extractTemplateKeys_amended.2.1 "A <<<x>>> B <<<y.z>>> C".data "x".data
    (by decide)

/-! Lemmas about dot-splitting of namespaced paths. -/

theorem splitOnDot_append_dot (ns path : List Char) (h : '.' ∉ ns) :
    splitOnDot (ns ++ '.' :: path) = ns :: splitOnDot path := by
  induction ns with
  | nil => simp [splitOnDot]
  | cons c ns' ih =>
    have hc : c ≠ '.' := fun hh => h (by simp [hh])
    have hns : '.' ∉ ns' := fun hh => h (List.mem_cons_of_mem c hh)
    have heq : splitOnDot ((c :: ns') ++ '.' :: path)
        = (match splitOnDot (ns' ++ '.' :: path) with
           | [] => [[c]]
           | p :: ps => (c :: p) :: ps) := by
      simp [splitOnDot, hc]
    rw [heq, ih hns]

theorem foldl_nestedStep_none (parts : List (List Char)) :
    parts.foldl nestedStep none = none := by
  induction parts with
  | nil => rfl
  | cons p ps ih => simpa [nestedStep] using ih

theorem splitOnDot_parts_no_dot (l : List Char) :
    ∀ p ∈ splitOnDot l, '.' ∉ p := by
  induction l with
  | nil => intro p hp; simp [splitOnDot] at hp; simp [hp]
  | cons c rest ih =>
    intro p hp
    by_cases hc : c = '.'
    · rw [hc] at hp
      simp only [splitOnDot, if_pos rfl] at hp
      rcases List.mem_cons.mp hp with h1 | h2
      · simp [h1]
      · exact ih p h2
    · simp only [splitOnDot, if_neg hc] at hp
      cases hsp : splitOnDot rest with
      | nil => exact absurd hsp (splitOnDot_ne_nil rest)
      | cons q qs =>
        rw [hsp] at hp
        rcases List.mem_cons.mp hp with h1 | h2
        · subst h1
          intro hmem
          rcases List.mem_cons.mp hmem with h3 | h4
          · exact hc h3.symm
          · exact ih q (by rw [hsp]; exact List.mem_cons_self q qs) h4
        · exact ih p (by rw [hsp]; exact List.mem_cons_of_mem q h2)

theorem lookupField_middle (fs₁ fs₂ : List (List Char × JsValue))
    (k : List Char) (v : JsValue) (p : List Char) (h : k ≠ p) :
    lookupField (fs₁ ++ (k, v) :: fs₂) p = lookupField (fs₁ ++ fs₂) p := by
  induction fs₁ with
  | nil => simp [lookupField, h]
  | cons e fs₁' ih =>
    obtain ⟨a, b⟩ := e
    by_cases ha : a = p
    · simp [lookupField, ha]
    · simp [lookupField, ha, ih]

/-- C3: a namespaced path (`ns.path` with a dot-free layer name `ns`, such as
`global`, `exif` or `utility`) resolves only within the value stored at the
`ns` field of the context: `getNestedValue` equals a lookup of `ns` followed
by resolution of the rest inside that layer, so no other layer — local keys
included — can contribute, and a missing layer or missing key yields
`undefined` (which the render engine turns into the sentinel). -/
theorem getNestedValue_namespaced_exact (ns : List Char) (hns : '.' ∉ ns)
    (fs : List (List Char × JsValue)) (path : List Char) :
    getNestedValue (JsValue.obj fs) (ns ++ '.' :: path)
      = (match lookupField fs ns with
         | some v => getNestedValue v path
         | none => none) := by
  unfold getNestedValue
  rw [splitOnDot_append_dot ns path hns]
  rw [List.foldl_cons]
  have hstep : nestedStep (some (JsValue.obj fs)) ns = lookupField fs ns := rfl
  rw [hstep]
  cases hlf : lookupField fs ns with
  | none => exact foldl_nestedStep_none (splitOnDot path)
  | some v => rfl

/-- C3 witness: `global.missing` resolves to `undefined` in a context whose
local layer and metadata layer both define `missing`, because resolution is
confined to the (empty) `global` layer; hypotheses discharged at the concrete
namespace `global`. -/
theorem getNestedValue_namespaced_exact_witness :
    getNestedValue
      (JsValue.obj
        [("missing".data, JsValue.str "local!".data),
         ("exif".data,
           JsValue.obj [("missing".data, JsValue.str "fromExif".data)]),
         ("global".data, JsValue.obj [])])
      ("global".data ++ '.' :: "missing".data)
      = (match lookupField
            [("missing".data, JsValue.str "local!".data),
             ("exif".data,
               JsValue.obj [("missing".data, JsValue.str "fromExif".data)]),
             ("global".data, JsValue.obj [])] "global".data with
         | some v => getNestedValue v "missing".data
         | none => none) :=
  getNestedValue_namespaced_exact "global".data (by decide) _ "missing".data

/-- C10: a local (root-level) key whose own name contains a dot is invisible
to the render engine's lookup — `getNestedValue` always splits the key on
dots, so the first segment looked up at the root differs from the full key
and removing the dotted binding changes nothing — and a placeholder naming
such a key exactly renders to the sentinel when the nested path does not
exist. -/
theorem getNestedValue_dotted_root_key_invisible :
    (∀ k : List Char, '.' ∈ k →
      ∀ (fs₁ fs₂ : List (List Char × JsValue)) (v : JsValue),
        getNestedValue (JsValue.obj (fs₁ ++ (k, v) :: fs₂)) k
          = getNestedValue (JsValue.obj (fs₁ ++ fs₂)) k)
    ∧ applyTemplate "<<<a.b>>>".data
        (JsValue.obj [("a.b".data, JsValue.str "val".data)]) 10
        = MISSING_PLACEHOLDER := by
  constructor
  · intro k hk fs₁ fs₂ v
    cases hsp : splitOnDot k with
    | nil => exact absurd hsp (splitOnDot_ne_nil k)
    | cons h t =>
      have hnd : '.' ∉ h :=
        splitOnDot_parts_no_dot k h (by rw [hsp]; exact List.mem_cons_self h t)
      have hne : k ≠ h := fun he => hnd (he ▸ hk)
      unfold getNestedValue
      rw [hsp, List.foldl_cons, List.foldl_cons]
      have h1 : nestedStep (some (JsValue.obj (fs₁ ++ (k, v) :: fs₂))) h
          = lookupField (fs₁ ++ (k, v) :: fs₂) h := rfl
      have h2 : nestedStep (some (JsValue.obj (fs₁ ++ fs₂))) h
          = lookupField (fs₁ ++ fs₂) h := rfl
      rw [h1, h2, lookupField_middle fs₁ fs₂ k v h hne]
  · rfl

/-- C10 witness: removing the dotted local binding `"a.b"` does not change
resolution of the placeholder key `a.b`; hypotheses discharged at the
concrete key. -/
theorem getNestedValue_dotted_root_key_invisible_witness :
    getNestedValue
        (JsValue.obj ([] ++ ("a.b".data, JsValue.str "val".data) :: []))
        "a.b".data
      = getNestedValue (JsValue.obj ([] ++ [])) "a.b".data :=
  getNestedValue_dotted_root_key_invisible.1 "a.b".data (by decide) [] []
    (JsValue.str "val".data)

/-! Structure of successful matches of the placeholder regex. -/

theorem findClose_cons (c : Char) (rest : List Char) :
    findClose (c :: rest)
      = if c = '>' ∧ rest.take 2 = ['>', '>'] then some ([], rest.drop 2)
        else if isTerm c then none
        else (findClose rest).map (fun p => (c :: p.1, p.2)) := rfl

theorem findClose_cons_skip (c : Char) (rest : List Char) (h1 : c ≠ '>')
    (h2 : isTerm c = false) :
    findClose (c :: rest)
      = (findClose rest).map (fun p => (c :: p.1, p.2)) := by
  rw [findClose_cons, if_neg (fun hh => h1 hh.1), if_neg (by simp [h2])]

theorem findClose_triple (w : List Char) :
    findClose ('>' :: '>' :: '>' :: w) = some ([], w) := by
  rw [findClose_cons, if_pos (by simp)]
  rfl

theorem findClose_some_decomp (l content after : List Char) :
    findClose l = some (content, after)
      → l = content ++ '>' :: '>' :: '>' :: after := by
  induction l generalizing content with
  | nil => intro h; exact Option.noConfusion h
  | cons x rest ih =>
    intro h
    rw [findClose_cons] at h
    by_cases hx : x = '>' ∧ rest.take 2 = ['>', '>']
    · rw [if_pos hx] at h
      injection h with hp
      injection hp with h1 h2
      have hrest : rest = '>' :: '>' :: rest.drop 2 := by
        conv_lhs => rw [← List.take_append_drop 2 rest, hx.2]
        rfl
      subst h1
      subst h2
      rw [hx.1]
      simp only [List.nil_append]
      exact congrArg ('>' :: ·) hrest
    · rw [if_neg hx] at h
      by_cases ht : isTerm x
      · rw [if_pos ht] at h; exact Option.noConfusion h
      · rw [if_neg ht] at h
        cases hfc : findClose rest with
        | none => rw [hfc] at h; exact Option.noConfusion h
        | some p =>
          rw [hfc] at h
          obtain ⟨q, r⟩ := p
          have h' : some (x :: q, r) = some (content, after) := h
          injection h' with hp
          injection hp with h1 h2
          subst h1
          subst h2
          have hr : rest = q ++ '>' :: '>' :: '>' :: r := ih q hfc
          rw [List.cons_append]
          exact congrArg (x :: ·) hr

theorem splitMatch_some_decomp (s content after : List Char) :
    splitMatch s = some (content, after)
      → s = '<' :: '<' :: '<' :: (content ++ '>' :: '>' :: '>' :: after) := by
  intro h
  unfold splitMatch at h
  by_cases h3 : s.take 3 = ['<', '<', '<']
  · rw [if_pos h3] at h
    have hdec := findClose_some_decomp (s.drop 3) content after h
    conv_lhs => rw [← List.take_append_drop 3 s]
    rw [h3, hdec]
    rfl
  · rw [if_neg h3] at h; exact Option.noConfusion h

theorem splitMatch_some_length (s content after : List Char)
    (h : splitMatch s = some (content, after)) :
    after.length + 6 ≤ s.length := by
  have := splitMatch_some_decomp s content after h
  have hl := congrArg List.length this
  simp [List.length_append] at hl
  omega

theorem splitMatch_nil : splitMatch ([] : List Char) = none := rfl

/-! Fuel irrelevance for the scanners. -/

theorem findMatches_fuel :
    ∀ fuel₁ fuel₂ (s : List Char), s.length ≤ fuel₁ → s.length ≤ fuel₂ →
      findMatches fuel₁ s = findMatches fuel₂ s := by
  intro fuel₁
  induction fuel₁ with
  | zero =>
    intro fuel₂ s h1 _
    have : s = [] := by
      cases s with
      | nil => rfl
      | cons c r => simp at h1
    subst this
    cases fuel₂ <;> rfl
  | succ f ih =>
    intro fuel₂ s h1 h2
    cases s with
    | nil => cases fuel₂ <;> rfl
    | cons c rest =>
      cases fuel₂ with
      | zero => simp at h2
      | succ f2 =>
        simp only [List.length_cons] at h1 h2
        show (match splitMatch (c :: rest) with
          | some (content, after) => content :: findMatches f after
          | none => findMatches f rest)
          = (match splitMatch (c :: rest) with
          | some (content, after) => content :: findMatches f2 after
          | none => findMatches f2 rest)
        cases hm : splitMatch (c :: rest) with
        | some p =>
          obtain ⟨content, after⟩ := p
          have hlen : after.length + 6 ≤ rest.length + 1 := by
            have := splitMatch_some_length _ content after hm
            simpa using this
          show content :: findMatches f after = content :: findMatches f2 after
          rw [ih f2 after (by omega) (by omega)]
        | none =>
          show findMatches f rest = findMatches f2 rest
          exact ih f2 rest (by omega) (by omega)

theorem scanRepl_fuel (f : List Char → List Char) :
    ∀ fuel₁ fuel₂ (s : List Char), s.length ≤ fuel₁ → s.length ≤ fuel₂ →
      scanRepl f fuel₁ s = scanRepl f fuel₂ s := by
  intro fuel₁
  induction fuel₁ with
  | zero =>
    intro fuel₂ s h1 _
    have : s = [] := by
      cases s with
      | nil => rfl
      | cons c r => simp at h1
    subst this
    cases fuel₂ <;> rfl
  | succ f1 ih =>
    intro fuel₂ s h1 h2
    cases s with
    | nil => cases fuel₂ <;> rfl
    | cons c rest =>
      cases fuel₂ with
      | zero => simp at h2
      | succ f2 =>
        simp only [List.length_cons] at h1 h2
        show (match splitMatch (c :: rest) with
          | some (content, after) => f content ++ scanRepl f f1 after
          | none => c :: scanRepl f f1 rest)
          = (match splitMatch (c :: rest) with
          | some (content, after) => f content ++ scanRepl f f2 after
          | none => c :: scanRepl f f2 rest)
        cases hm : splitMatch (c :: rest) with
        | some p =>
          obtain ⟨content, after⟩ := p
          have hlen : after.length + 6 ≤ rest.length + 1 := by
            have := splitMatch_some_length _ content after hm
            simpa using this
          show f content ++ scanRepl f f1 after
            = f content ++ scanRepl f f2 after
          rw [ih f2 after (by omega) (by omega)]
        | none =>
          show c :: scanRepl f f1 rest = c :: scanRepl f f2 rest
          rw [ih f2 rest (by omega) (by omega)]

/-! Single-step characterizations freed from fuel. -/

theorem matchKeys_cons_some (c : Char) (rest content after : List Char)
    (h : splitMatch (c :: rest) = some (content, after)) :
    matchKeys (c :: rest) = content :: matchKeys after := by
  have hlen := splitMatch_some_length _ content after h
  show findMatches (rest.length + 1) (c :: rest) = _
  have hstep : findMatches (rest.length + 1) (c :: rest)
      = content :: findMatches rest.length after := by
    show (match splitMatch (c :: rest) with
      | some (content, after) => content :: findMatches rest.length after
      | none => findMatches rest.length rest) = _
    rw [h]
  rw [hstep, findMatches_fuel rest.length after.length after
    (by simp at hlen; omega) (le_refl _)]
  rfl

theorem matchKeys_cons_none (c : Char) (rest : List Char)
    (h : splitMatch (c :: rest) = none) :
    matchKeys (c :: rest) = matchKeys rest := by
  show findMatches (rest.length + 1) (c :: rest) = _
  show (match splitMatch (c :: rest) with
    | some (content, after) => content :: findMatches rest.length after
    | none => findMatches rest.length rest) = _
  rw [h]
  rfl

theorem replaceAll3_cons_some (f : List Char → List Char) (c : Char)
    (rest content after : List Char)
    (h : splitMatch (c :: rest) = some (content, after)) :
    replaceAll3 f (c :: rest) = f content ++ replaceAll3 f after := by
  have hlen := splitMatch_some_length _ content after h
  show scanRepl f (rest.length + 1) (c :: rest) = _
  have hstep : scanRepl f (rest.length + 1) (c :: rest)
      = f content ++ scanRepl f rest.length after := by
    show (match splitMatch (c :: rest) with
      | some (content, after) => f content ++ scanRepl f rest.length after
      | none => c :: scanRepl f rest.length rest) = _
    rw [h]
  rw [hstep, scanRepl_fuel f rest.length after.length after
    (by simp at hlen; omega) (le_refl _)]
  rfl

theorem replaceAll3_cons_none (f : List Char → List Char) (c : Char)
    (rest : List Char) (h : splitMatch (c :: rest) = none) :
    replaceAll3 f (c :: rest) = c :: replaceAll3 f rest := by
  show scanRepl f (rest.length + 1) (c :: rest) = _
  show (match splitMatch (c :: rest) with
    | some (content, after) => f content ++ scanRepl f rest.length after
    | none => c :: scanRepl f rest.length rest) = _
  rw [h]
  rfl

/-! The `blocked` predicate: a line terminator shields every continuation
from closing a placeholder. -/

theorem blocked_cons (c : Char) (rest : List Char) :
    blocked (c :: rest)
      = if c = '>' ∧ rest.take 2 = ['>', '>'] then false
        else if isTerm c then true
        else blocked rest := rfl

theorem blocked_append (u v : List Char) (h : blocked u = true) :
    findClose (u ++ v) = none := by
  induction u with
  | nil => exact absurd h (by simp [blocked])
  | cons c rest ih =>
    rw [blocked_cons] at h
    by_cases hx : c = '>' ∧ rest.take 2 = ['>', '>']
    · rw [if_pos hx] at h; exact Bool.noConfusion h
    · rw [if_neg hx] at h
      have hb : isTerm c = true ∨ blocked rest = true := by
        by_cases ht : isTerm c
        · exact Or.inl ht
        · rw [if_neg ht] at h; exact Or.inr h
      rw [List.cons_append, findClose_cons]
      have hcond : ¬ (c = '>' ∧ (rest ++ v).take 2 = ['>', '>']) := by
        intro hcv
        have hterm : isTerm c = false := by rw [hcv.1]; rfl
        have hbr : blocked rest = true := by
          rcases hb with h1 | h2
          · rw [hterm] at h1; exact Bool.noConfusion h1
          · exact h2
        rcases rest with _ | ⟨x, _ | ⟨y, rest'⟩⟩
        · exact absurd hbr (by simp [blocked])
        · have hx' : x = '>' := by
            have h2 := hcv.2
            simp [List.take] at h2
            exact h2.1
          have hterm2 : isTerm x = true := by
            rw [blocked_cons] at hbr
            rw [if_neg (by simp)] at hbr
            by_cases h3 : isTerm x
            · exact h3
            · rw [if_neg h3] at hbr; exact absurd hbr (by simp [blocked])
          rw [hx'] at hterm2
          exact absurd hterm2 (by decide)
        · apply hx
          refine ⟨hcv.1, ?_⟩
          have h2 := hcv.2
          simpa [List.take] using h2
      rw [if_neg hcond]
      by_cases ht : isTerm c
      · rw [if_pos ht]
      · rw [if_neg ht]
        have hbr : blocked rest = true := by
          rcases hb with h1 | h2
          · exact absurd h1 (by simp [ht])
          · exact h2
        rw [ih hbr]
        rfl

theorem blocked_of_append_none (u w : List Char) (hw : findClose w ≠ none) :
    findClose (u ++ w) = none → blocked u = true := by
  induction u with
  | nil => intro h; exact absurd (by simpa using h) hw
  | cons c rest ih =>
    intro h
    rw [List.cons_append, findClose_cons] at h
    rw [blocked_cons]
    have hcond : ¬ (c = '>' ∧ (rest ++ w).take 2 = ['>', '>']) := by
      intro hcv
      rw [if_pos hcv] at h
      exact Option.noConfusion h
    rw [if_neg hcond] at h
    have hbc : ¬ (c = '>' ∧ rest.take 2 = ['>', '>']) := by
      intro hb
      apply hcond
      refine ⟨hb.1, ?_⟩
      have hr2 : rest = '>' :: '>' :: rest.drop 2 := by
        conv_lhs => rw [← List.take_append_drop 2 rest, hb.2]
        rfl
      conv_lhs => rw [hr2]
      rfl
    rw [if_neg hbc]
    by_cases ht : isTerm c
    · rw [if_pos ht]
    · rw [if_neg ht] at h ⊢
      have hnone : findClose (rest ++ w) = none := by
        cases hfc : findClose (rest ++ w) with
        | none => rfl
        | some p => rw [hfc] at h; exact Option.noConfusion h
      exact ih hnone

/-! Leftmost-match decomposition of a scanned string. -/

theorem scan_decomp (s : List Char) :
    (∀ i, splitMatch (s.drop i) = none)
    ∨ ∃ g content after,
        s = g ++ '<' :: '<' :: '<' :: (content ++ '>' :: '>' :: '>' :: after)
        ∧ (∀ i < g.length, splitMatch (s.drop i) = none)
        ∧ splitMatch (s.drop g.length) = some (content, after) := by
  induction s with
  | nil =>
    left
    intro i
    rw [List.drop_nil]
    rfl
  | cons c rest ih =>
    cases hm : splitMatch (c :: rest) with
    | some p =>
      obtain ⟨content, after⟩ := p
      right
      refine ⟨[], content, after, ?_, ?_, ?_⟩
      · simpa using splitMatch_some_decomp _ content after hm
      · intro i hi; simp at hi
      · simpa using hm
    | none =>
      rcases ih with hall | ⟨g, content, after, hdec, hgap, hsm⟩
      · left
        intro i
        cases i with
        | zero => simpa using hm
        | succ j => rw [List.drop_succ_cons]; exact hall j
      · right
        refine ⟨c :: g, content, after, ?_, ?_, ?_⟩
        · rw [List.cons_append, ← hdec]
        · intro i hi
          cases i with
          | zero => simpa using hm
          | succ j =>
            rw [List.drop_succ_cons]
            exact hgap j (by simpa using hi)
        · rw [List.length_cons, List.drop_succ_cons]
          exact hsm

/-! Walking a match-free gap. -/

theorem replaceAll3_gap (f : List Char → List Char) (g w : List Char)
    (hgap : ∀ i < g.length, splitMatch ((g ++ w).drop i) = none) :
    replaceAll3 f (g ++ w) = g ++ replaceAll3 f w := by
  induction g with
  | nil => simp
  | cons c g' ih =>
    have h0 : splitMatch (c :: (g' ++ w)) = none := by
      simpa using hgap 0 (by simp)
    rw [List.cons_append, replaceAll3_cons_none f _ _ h0, ih, List.cons_append]
    intro i hi
    have := hgap (i + 1) (by simpa using Nat.succ_lt_succ hi)
    simpa [List.drop_succ_cons] using this

theorem matchKeys_gap (g w : List Char)
    (hgap : ∀ i < g.length, splitMatch ((g ++ w).drop i) = none) :
    matchKeys (g ++ w) = matchKeys w := by
  induction g with
  | nil => simp
  | cons c g' ih =>
    have h0 : splitMatch (c :: (g' ++ w)) = none := by
      simpa using hgap 0 (by simp)
    rw [List.cons_append, matchKeys_cons_none _ _ h0, ih]
    intro i hi
    have := hgap (i + 1) (by simpa using Nat.succ_lt_succ hi)
    simpa [List.drop_succ_cons] using this

theorem matchKeys_all_none (s : List Char)
    (hall : ∀ i, splitMatch (s.drop i) = none) : matchKeys s = [] := by
  induction s with
  | nil => rfl
  | cons c rest ih =>
    rw [matchKeys_cons_none c rest (by simpa using hall 0)]
    exact ih (fun i => by simpa [List.drop_succ_cons] using hall (i + 1))

theorem replaceAll3_all_none (f : List Char → List Char) (s : List Char)
    (hall : ∀ i, splitMatch (s.drop i) = none) : replaceAll3 f s = s := by
  induction s with
  | nil => rfl
  | cons c rest ih =>
    rw [replaceAll3_cons_none f c rest (by simpa using hall 0)]
    rw [ih (fun i => by simpa [List.drop_succ_cons] using hall (i + 1))]

/-! The sentinel is itself a placeholder match, and the only one a clean
output position can produce. -/

theorem findClose_clean_append (content w : List Char)
    (h : ∀ c ∈ content, c ≠ '>' ∧ isTerm c = false) :
    findClose (content ++ '>' :: '>' :: '>' :: w) = some (content, w) := by
  induction content with
  | nil => simpa using findClose_triple w
  | cons c content' ih =>
    rw [List.cons_append,
      findClose_cons_skip c _ (h c (by simp)).1 (h c (by simp)).2,
      ih (fun d hd => h d (List.mem_cons_of_mem c hd))]
    rfl

theorem splitMatch_sent (x : List Char) :
    splitMatch (MISSING_PLACEHOLDER ++ x) = some ("missing".data, x) := by
  show (if (MISSING_PLACEHOLDER ++ x).take 3 = ['<', '<', '<']
    then findClose ((MISSING_PLACEHOLDER ++ x).drop 3) else none) = _
  rw [if_pos (show (MISSING_PLACEHOLDER ++ x).take 3 = ['<', '<', '<']
    from rfl)]
  show findClose ("missing".data ++ '>' :: '>' :: '>' :: x) = _
  exact findClose_clean_append "missing".data x (by decide)

theorem matchKeys_sent (x : List Char) :
    matchKeys (MISSING_PLACEHOLDER ++ x) = "missing".data :: matchKeys x := by
  have h := splitMatch_sent x
  show matchKeys ('<' :: ("<<missing>>>".data ++ x)) = _
  exact matchKeys_cons_some '<' ("<<missing>>>".data ++ x) "missing".data x h

theorem splitMatch_eq_findClose_of_take3 (s : List Char)
    (h : s.take 3 = ['<', '<', '<']) : splitMatch s = findClose (s.drop 3) := by
  show (if s.take 3 = ['<', '<', '<'] then findClose (s.drop 3) else none) = _
  rw [if_pos h]

theorem splitMatch_none_of_take3_ne (s : List Char)
    (h : s.take 3 ≠ ['<', '<', '<']) : splitMatch s = none := by
  show (if s.take 3 = ['<', '<', '<'] then findClose (s.drop 3) else none) = _
  rw [if_neg h]

theorem splitMatch_cons3 (y : List Char) :
    splitMatch ('<' :: '<' :: '<' :: y) = findClose y :=
  splitMatch_eq_findClose_of_take3 _ rfl

/-- In the output of the final sentinel pass, every gap position fails to
match: interior triples are blocked by a terminator inside the gap, and the
gap cannot end in `<`, so no placeholder can form across the boundary with
the sentinel that follows. -/
theorem splitMatch_gap_out (g x : List Char)
    (hgap3 : ∀ i, (g.drop i).take 3 = ['<', '<', '<']
      → blocked (g.drop (i + 3)) = true)
    (hlast : ∀ d, g.getLast? = some d → d ≠ '<') :
    ∀ i < g.length,
      splitMatch ((g ++ (MISSING_PLACEHOLDER ++ x)).drop i) = none := by
  intro i hi
  rw [List.drop_append_of_le_length (by omega)]
  rcases hshape : g.drop i with _ | ⟨a, t1⟩
  · exfalso
    have := congrArg List.length hshape
    simp [List.length_drop] at this
    omega
  rcases t1 with _ | ⟨b, t2⟩
  · have ha : g.getLast? = some a := by
      conv_lhs => rw [← List.take_append_drop i g, hshape]
      rw [List.getLast?_append]
      rfl
    apply splitMatch_none_of_take3_ne
    intro hc
    have hc' : [a, '<', '<'] = ['<', '<', '<'] := hc
    injection hc' with h1 _
    exact hlast a ha h1
  rcases t2 with _ | ⟨c3, t3⟩
  · have hb : g.getLast? = some b := by
      conv_lhs => rw [← List.take_append_drop i g, hshape]
      rw [List.getLast?_append]
      rfl
    apply splitMatch_none_of_take3_ne
    intro hc
    have hc' : [a, b, '<'] = ['<', '<', '<'] := hc
    injection hc' with _ hc''
    injection hc'' with h2 _
    exact hlast b hb h2
  · by_cases h3 : (a :: b :: c3 :: t3).take 3 = ['<', '<', '<']
    · have htake : ((a :: b :: c3 :: t3) ++ (MISSING_PLACEHOLDER ++ x)).take 3
          = ['<', '<', '<'] := by
        rw [List.take_append_of_le_length (by simp)]
        exact h3
      rw [splitMatch_eq_findClose_of_take3 _ htake]
      have hblock : blocked (g.drop (i + 3)) = true := by
        apply hgap3 i
        rw [hshape]
        exact h3
      have ht3 : g.drop (i + 3) = t3 := by
        have hdd : g.drop (i + 3) = (g.drop i).drop 3 :=
          (List.drop_drop 3 i g).symm
        rw [hdd, hshape]
        rfl
      have hfin : ((a :: b :: c3 :: t3) ++ (MISSING_PLACEHOLDER ++ x)).drop 3
          = t3 ++ (MISSING_PLACEHOLDER ++ x) := rfl
      rw [hfin, ← ht3]
      exact blocked_append _ _ hblock
    · apply splitMatch_none_of_take3_ne
      rw [List.take_append_of_le_length (by simp)]
      exact h3

/-- Every placeholder match left in the output of the final sentinel pass is
the sentinel itself (its content is `missing`). -/
theorem scanMissing_all (n : Nat) :
    ∀ s : List Char, s.length ≤ n →
      ∀ k ∈ matchKeys (replaceAll3 (fun _ => MISSING_PLACEHOLDER) s),
        k = "missing".data := by
  induction n with
  | zero =>
    intro s hs k hk
    have hnil : s = [] := by
      cases s with
      | nil => rfl
      | cons c r => simp at hs
    subst hnil
    simp [replaceAll3, scanRepl, matchKeys, findMatches] at hk
  | succ m ih =>
    intro s hs k hk
    rcases scan_decomp s with hall | ⟨g, content, after, hdec, hgap, hsm⟩
    · rw [replaceAll3_all_none _ s hall, matchKeys_all_none s hall] at hk
      simp at hk
    · have hsd : s.drop g.length
          = '<' :: '<' :: '<' :: (content ++ '>' :: '>' :: '>' :: after) := by
        rw [hdec]
        exact List.drop_left g _
      have hsm' : splitMatch
          ('<' :: '<' :: '<' :: (content ++ '>' :: '>' :: '>' :: after))
          = some (content, after) := by
        rw [← hsd]; exact hsm
      have hfcY : findClose (content ++ '>' :: '>' :: '>' :: after)
          = some (content, after) := by
        rw [← splitMatch_cons3]; exact hsm'
      have hgap' : ∀ i < g.length,
          splitMatch ((g ++ '<' :: '<' :: '<' ::
            (content ++ '>' :: '>' :: '>' :: after)).drop i) = none := by
        intro i hi
        rw [← hdec]
        exact hgap i hi
      have hout : replaceAll3 (fun _ => MISSING_PLACEHOLDER) s
          = g ++ (MISSING_PLACEHOLDER
              ++ replaceAll3 (fun _ => MISSING_PLACEHOLDER) after) := by
        rw [hdec, replaceAll3_gap _ g _ hgap']
        have hstep := replaceAll3_cons_some (fun _ => MISSING_PLACEHOLDER) '<'
          ('<' :: '<' :: (content ++ '>' :: '>' :: '>' :: after))
          content after hsm'
        rw [hstep]
      have hgap3 : ∀ i, (g.drop i).take 3 = ['<', '<', '<']
          → blocked (g.drop (i + 3)) = true := by
        intro i h3
        have hsplit : g.drop i = ['<', '<', '<'] ++ (g.drop i).drop 3 := by
          conv_lhs => rw [← List.take_append_drop 3 (g.drop i), h3]
        have hlen3 := congrArg List.length hsplit
        simp [List.length_drop, List.length_append] at hlen3
        have hi3 : i + 3 ≤ g.length := by omega
        have hi : i < g.length := by omega
        have hfail := hgap i hi
        rw [hdec, List.drop_append_of_le_length (by omega)] at hfail
        have htake : ((g.drop i) ++ '<' :: '<' :: '<' ::
            (content ++ '>' :: '>' :: '>' :: after)).take 3
            = ['<', '<', '<'] := by
          rw [List.take_append_of_le_length
            (by simp [List.length_drop]; omega)]
          exact h3
        rw [splitMatch_eq_findClose_of_take3 _ htake] at hfail
        rw [List.drop_append_of_le_length
          (by simp [List.length_drop]; omega)] at hfail
        rw [List.drop_drop] at hfail
        have hne : findClose ('<' :: '<' :: '<' ::
            (content ++ '>' :: '>' :: '>' :: after)) ≠ none := by
          rw [findClose_cons_skip '<' _ (by decide) (by decide),
              findClose_cons_skip '<' _ (by decide) (by decide),
              findClose_cons_skip '<' _ (by decide) (by decide), hfcY]
          simp
        exact blocked_of_append_none _ _ hne hfail
      have hlast : ∀ d, g.getLast? = some d → d ≠ '<' := by
        intro d hd hdeq
        subst hdeq
        have hgne : g ≠ [] := by
          intro h0
          rw [h0] at hd
          exact Option.noConfusion hd
        have hgetLast : g.getLast hgne = '<' := by
          have hsome := List.getLast?_eq_getLast g hgne
          rw [hsome] at hd
          exact Option.some.inj hd
        have hgl : g.dropLast ++ ['<'] = g := by
          rw [← hgetLast]
          exact List.dropLast_append_getLast hgne
        have hlen : g.dropLast.length + 1 = g.length := by
          have := congrArg List.length hgl
          simpa using this
        have hfail := hgap g.dropLast.length (by omega)
        rw [hdec, List.drop_append_of_le_length (by omega)] at hfail
        have hgd : g.drop g.dropLast.length = ['<'] := by
          have hdl := List.drop_left g.dropLast ['<']
          rw [hgl] at hdl
          exact hdl
        rw [hgd] at hfail
        have hcalc : splitMatch (['<'] ++ '<' :: '<' :: '<' ::
            (content ++ '>' :: '>' :: '>' :: after)) ≠ none := by
          have hform : (['<'] ++ '<' :: '<' :: '<' ::
              (content ++ '>' :: '>' :: '>' :: after))
              = '<' :: '<' :: '<' ::
                ('<' :: (content ++ '>' :: '>' :: '>' :: after)) := rfl
          rw [hform, splitMatch_cons3,
            findClose_cons_skip '<' _ (by decide) (by decide), hfcY]
          simp
        exact hcalc hfail
      rw [hout] at hk
      rw [matchKeys_gap g _ (splitMatch_gap_out g _ hgap3 hlast),
        matchKeys_sent] at hk
      rcases List.mem_cons.mp hk with h1 | h2
      · exact h1
      · have hlen : after.length ≤ m := by
          have := congrArg List.length hdec
          simp [List.length_append] at this
          omega
        exact ih after hlen k h2

/-- C2: after `applyTemplate` completes, the output contains no
unresolved-but-still-bracketed placeholder: the final pass has replaced every
placeholder with the sentinel, so every placeholder match still present in
the output is the sentinel itself — its key is the literal `missing`. -/
theorem applyTemplate_no_unresolved_placeholder :
    ∀ (template : List Char) (context : JsValue) (maxIterations : Nat),
      (matchKeys (applyTemplate template context maxIterations)).all
        (fun k => k == "missing".data) = true := by
  intro template context maxIterations
  rw [List.all_eq_true]
  intro k hk
  have := scanMissing_all
    (renderLoop context maxIterations (maxIterations + 1) 0 template []).length
    (renderLoop context maxIterations (maxIterations + 1) 0 template [])
    (le_refl _) k hk
  simpa using this

/-! The edge-trim step of the title normalizer. -/

theorem lastIndexOfDot_neg_of_not_mem (l : List Char) (h : '.' ∉ l) :
    lastIndexOfDot l = -1 :=
  lastIndexOfDot_neg l (fun hge => h ((lastIndexOfDot_nonneg_iff l).mp hge))

theorem lastIndexOfDot_append (a b : List Char) (h : '.' ∉ b) :
    lastIndexOfDot (a ++ '.' :: b) = (a.length : Int) := by
  induction a with
  | nil =>
    have hb : lastIndexOfDot b = -1 := lastIndexOfDot_neg_of_not_mem b h
    simp [lastIndexOfDot, hb]
  | cons c a' ih =>
    show lastIndexOfDot (c :: (a' ++ '.' :: b)) = _
    simp only [lastIndexOfDot, ih]
    rw [if_pos (by omega : ((a'.length : Int) ≥ 0))]
    simp

theorem lastIndexOfDot_cons_dot (b : List Char) (h : '.' ∉ b) :
    lastIndexOfDot ('.' :: b) = 0 := by
  have hb : lastIndexOfDot b = -1 := lastIndexOfDot_neg_of_not_mem b h
  simp [lastIndexOfDot, hb]

/-- C7 counterexample: for `"._"`, whose only dot is at index 0, the
edge-trim step trims the whole string — the portion after the final dot is
not preserved (the claim would require the output `"._"`). -/
theorem edgeTrimStep_zero_index_counterexample :
    edgeTrimStep "._".data = ".".data
    ∧ edgeTrimStep "._".data ≠ trimUnderscores ([] : List Char) ++ "._".data := by
  exact ⟨rfl, by decide⟩

theorem edgeTrim_split_pos (a b : List Char) (hb : '.' ∉ b) (ha : a ≠ []) :
    edgeTrimStep (a ++ '.' :: b) = trimUnderscores a ++ '.' :: b := by
  have hld := lastIndexOfDot_append a b hb
  have hpos : (0 : Int) < (a.length : Int) := by
    have := List.length_pos.mpr ha
    omega
  unfold edgeTrimStep
  rw [hld, if_pos hpos]
  rw [show ((a.length : Int)).toNat = a.length from by omega]
  rw [List.take_left, List.drop_left]

theorem edgeTrim_no_dot (l : List Char) (hl : '.' ∉ l) :
    edgeTrimStep l = trimUnderscores l := by
  have hneg : lastIndexOfDot l = -1 := lastIndexOfDot_neg_of_not_mem l hl
  unfold edgeTrimStep
  rw [hneg]
  norm_num

theorem edgeTrim_dot_zero (b : List Char) (hb : '.' ∉ b) :
    edgeTrimStep ('.' :: b) = trimUnderscores ('.' :: b) := by
  have h0 : lastIndexOfDot ('.' :: b) = 0 := lastIndexOfDot_cons_dot b hb
  unfold edgeTrimStep
  rw [h0]
  norm_num

/-- C7 (amended): the edge-trim step removes leading and trailing underscores
from the name portion only and preserves the text after the final `.`
untouched, provided the final `.` sits at a positive index (nonempty name
part); when the string has no `.`, or its only `.` is the first character,
the trim applies to the whole string. -/
theorem edgeTrimStep_name_only :
    (∀ a b : List Char, '.' ∉ b → a ≠ [] →
        edgeTrimStep (a ++ '.' :: b) = trimUnderscores a ++ '.' :: b)
    ∧ (∀ l : List Char, '.' ∉ l → edgeTrimStep l = trimUnderscores l)
    ∧ (∀ b : List Char, '.' ∉ b
        → edgeTrimStep ('.' :: b) = trimUnderscores ('.' :: b)) :=
  ⟨edgeTrim_split_pos, edgeTrim_no_dot, edgeTrim_dot_zero⟩

/-- C7 witness: the name-portion component applied to the concrete split
`"na_me" ++ "." ++ "jpg"`, hypotheses discharged by evaluation. -/
theorem edgeTrimStep_name_only_witness :
    edgeTrimStep ("_na_me_".data ++ '.' :: "jpg".data)
      = trimUnderscores "_na_me_".data ++ '.' :: "jpg".data :=
  edgeTrimStep_name_only.1 "_na_me_".data "jpg".data (by decide) (by decide)

/-! Character-level facts for the normalizer's substitution steps. -/

theorem map_subst_id (s : List Char) (k r : Char) (h : ∀ c ∈ s, c ≠ k) :
    s.map (fun c => if c = k then r else c) = s := by
  have : s.map (fun c => if c = k then r else c) = s.map id :=
    List.map_congr_left (fun c hc => by rw [if_neg (h c hc)]; rfl)
  rw [this, List.map_id]

theorem foldl_subst_id (PS : List (Char × Char)) :
    ∀ s : List Char, (∀ c ∈ s, ∀ p ∈ PS, c ≠ p.1) →
      PS.foldl (fun acc p => acc.map (fun x => if x = p.1 then p.2 else x)) s
        = s := by
  induction PS with
  | nil => intro s _; rfl
  | cons p ps ih =>
    intro s hs
    simp only [List.foldl_cons]
    rw [map_subst_id s p.1 p.2 (fun c hc => hs c hc p (by simp))]
    exact ih s (fun c hc q hq => hs c hc q (List.mem_cons_of_mem p hq))

theorem foldl_subst_no_keys (K : Char → Bool) (PS : List (Char × Char))
    (hrep : ∀ p ∈ PS, K p.2 = false) :
    ∀ s : List Char, (∀ c ∈ s, K c = false ∨ ∃ p ∈ PS, c = p.1) →
      ∀ c ∈ PS.foldl
        (fun acc p => acc.map (fun x => if x = p.1 then p.2 else x)) s,
        K c = false := by
  induction PS with
  | nil =>
    intro s hs c hc
    rcases hs c hc with h | ⟨p, hp, _⟩
    · exact h
    · simp at hp
  | cons p ps ih =>
    intro s hs c hc
    simp only [List.foldl_cons] at hc
    refine ih (fun q hq => hrep q (List.mem_cons_of_mem p hq)) _ ?_ c hc
    intro d hd
    rcases List.mem_map.mp hd with ⟨e, he, heq⟩
    by_cases hek : e = p.1
    · rw [if_pos hek] at heq
      left
      rw [← heq]
      exact hrep p (by simp)
    · rw [if_neg hek] at heq
      subst heq
      rcases hs e he with h | ⟨q, hq, heq'⟩
      · exact Or.inl h
      · rcases List.mem_cons.mp hq with h1 | h2
        · exact absurd (h1 ▸ heq') hek
        · exact Or.inr ⟨q, h2, heq'⟩

theorem substForbiddenFold_no_key (s : List Char) :
    ∀ c ∈ substForbiddenFold s, forbiddenKey c = false := by
  apply foldl_subst_no_keys forbiddenKey FORBIDDEN_CHARS (by decide)
  intro c _
  by_cases h : forbiddenKey c = true
  · right
    rcases List.any_eq_true.mp h with ⟨p, hp, hcp⟩
    exact ⟨p, hp, by simpa using hcp⟩
  · left
    simpa using h

theorem substForbiddenFold_id (s : List Char)
    (h : ∀ c ∈ s, forbiddenKey c = false) : substForbiddenFold s = s := by
  apply foldl_subst_id
  intro c hc p hp hcp
  have : forbiddenKey c = true := List.any_eq_true.mpr ⟨p, hp, by simp [hcp]⟩
  rw [h c hc] at this
  exact Bool.noConfusion this

theorem spaceToUnderscore_id (s : List Char) (h : ∀ c ∈ s, c ≠ ' ') :
    spaceToUnderscore s = s :=
  map_subst_id s ' ' '_' h

theorem mem_spaceToUnderscore_ne_space (s : List Char) :
    ∀ c ∈ spaceToUnderscore s, c ≠ ' ' := by
  intro c hc
  rcases List.mem_map.mp hc with ⟨d, _, hd⟩
  by_cases h : d = ' '
  · rw [if_pos h] at hd; rw [← hd]; decide
  · rw [if_neg h] at hd; rw [← hd]; exact h

theorem mem_spaceToUnderscore_no_key (s : List Char)
    (hs : ∀ c ∈ s, forbiddenKey c = false) :
    ∀ c ∈ spaceToUnderscore s, forbiddenKey c = false := by
  intro c hc
  rcases List.mem_map.mp hc with ⟨d, hdm, hd⟩
  by_cases h : d = ' '
  · rw [if_pos h] at hd; rw [← hd]; decide
  · rw [if_neg h] at hd; rw [← hd]; exact hs d hdm

/-! Facts about the underscore collapse. -/

theorem mem_collapseU (l : List Char) : ∀ c ∈ collapseU l, c ∈ l := by
  induction l with
  | nil => intro c hc; exact hc
  | cons a rest ih =>
    intro c hc
    cases rest with
    | nil => exact hc
    | cons d rest₂ =>
      by_cases had : a = '_' ∧ d = '_'
      · rw [show collapseU (a :: d :: rest₂) = collapseU (d :: rest₂) from by
          simp [collapseU, had]] at hc
        exact List.mem_cons_of_mem a (ih c hc)
      · rw [show collapseU (a :: d :: rest₂) = a :: collapseU (d :: rest₂) from by
          simp [collapseU, had]] at hc
        rcases List.mem_cons.mp hc with h1 | h2
        · exact h1 ▸ List.mem_cons_self a _
        · exact List.mem_cons_of_mem a (ih c h2)

theorem collapseU_head (d : Char) (rest : List Char) :
    (collapseU (d :: rest)).head? = some d := by
  induction rest generalizing d with
  | nil => rfl
  | cons e rest₂ ih =>
    by_cases hde : d = '_' ∧ e = '_'
    · rw [show collapseU (d :: e :: rest₂) = collapseU (e :: rest₂) from by
        simp [collapseU, hde]]
      rw [ih e, hde.2, hde.1]
    · rw [show collapseU (d :: e :: rest₂) = d :: collapseU (e :: rest₂) from by
        simp [collapseU, hde]]
      rfl

theorem collapseU_chain (l : List Char) :
    List.Chain' (fun a b => ¬(a = '_' ∧ b = '_')) (collapseU l) := by
  induction l with
  | nil => exact List.chain'_nil
  | cons a rest ih =>
    cases rest with
    | nil => exact List.chain'_singleton a
    | cons d rest₂ =>
      by_cases had : a = '_' ∧ d = '_'
      · rw [show collapseU (a :: d :: rest₂) = collapseU (d :: rest₂) from by
          simp [collapseU, had]]
        exact ih
      · rw [show collapseU (a :: d :: rest₂) = a :: collapseU (d :: rest₂) from by
          simp [collapseU, had]]
        rw [List.chain'_cons']
        refine ⟨?_, ih⟩
        intro y hy
        rw [collapseU_head d rest₂] at hy
        have hyd : d = y := by simpa using hy
        rw [← hyd]
        exact had

theorem collapseU_id_of_chain (l : List Char)
    (h : List.Chain' (fun a b => ¬(a = '_' ∧ b = '_')) l) : collapseU l = l := by
  induction l with
  | nil => rfl
  | cons a rest ih =>
    cases rest with
    | nil => rfl
    | cons d rest₂ =>
      have h2 := List.chain'_cons.mp h
      rw [show collapseU (a :: d :: rest₂) = a :: collapseU (d :: rest₂) from by
        simp [collapseU, h2.1]]
      rw [ih h2.2]

/-! Edge facts about the underscore trim. -/

theorem head?_dropWhile_ne (p : Char → Bool) (l : List Char) (h : Char)
    (hh : (l.dropWhile p).head? = some h) : p h = false := by
  cases hl : l.dropWhile p with
  | nil => rw [hl] at hh; exact Option.noConfusion hh
  | cons x xs =>
    have hx : x = h := by rw [hl] at hh; simpa using hh
    have := List.head_dropWhile_not p l (by simp [hl])
    rw [← hx]
    simpa [hl] using this

theorem head?_rdropWhile_of_ne_nil (p : Char → Bool) (l : List Char)
    (hne : l.rdropWhile p ≠ []) : (l.rdropWhile p).head? = l.head? := by
  obtain ⟨t, ht⟩ := List.rdropWhile_prefix p l
  exact (head?_eq_of_isPre _ l hne ⟨t, ht⟩).symm

theorem trimU_head_ne (l : List Char) (h : Char)
    (hh : (trimUnderscores l).head? = some h) : h ≠ '_' := by
  have hne : trimUnderscores l ≠ [] := by
    intro h0; rw [h0] at hh; exact Option.noConfusion hh
  unfold trimUnderscores at hh hne
  rw [head?_rdropWhile_of_ne_nil _ _ hne] at hh
  have := head?_dropWhile_ne isUnderscore l h hh
  simpa [isUnderscore] using this

theorem trimU_last_ne (l : List Char) (d : Char)
    (hd : (trimUnderscores l).getLast? = some d) : d ≠ '_' := by
  have hne : trimUnderscores l ≠ [] := by
    intro h0; rw [h0] at hd; exact Option.noConfusion hd
  have hlast := List.rdropWhile_last_not isUnderscore
    (l.dropWhile isUnderscore) hne
  rw [List.getLast?_eq_getLast _ hne] at hd
  have hdd := Option.some.inj hd
  intro heq
  apply hlast
  show isUnderscore ((trimUnderscores l).getLast hne) = true
  rw [hdd, heq]
  rfl

theorem trimU_eq_self (l : List Char)
    (hh : ∀ h, l.head? = some h → h ≠ '_')
    (hl : ∀ d, l.getLast? = some d → d ≠ '_') :
    trimUnderscores l = l := by
  unfold trimUnderscores
  have h1 : l.dropWhile isUnderscore = l := by
    apply dropWhile_eq_self_of_head?
    intro c hc
    have := hh c hc
    simpa [isUnderscore] using this
  rw [h1, List.rdropWhile_eq_self_iff]
  intro hne
  have := hl (l.getLast hne) (List.getLast?_eq_getLast l hne)
  simpa [isUnderscore] using this

theorem mem_trimU (l : List Char) : ∀ c ∈ trimUnderscores l, c ∈ l := by
  intro c hc
  unfold trimUnderscores at hc
  obtain ⟨t, ht⟩ := List.rdropWhile_prefix isUnderscore
    (l.dropWhile isUnderscore)
  have h1 : c ∈ l.dropWhile isUnderscore := by
    rw [← ht]
    exact List.mem_append_left t hc
  obtain ⟨v, hv⟩ := List.dropWhile_suffix (l := l) isUnderscore
  rw [← hv]
  exact List.mem_append_right v h1

/-! Chain transfer along sublist-style operations. -/

theorem chain'_take {R : Char → Char → Prop} (l : List Char) (n : Nat)
    (h : List.Chain' R l) : List.Chain' R (l.take n) := by
  have hp := List.take_prefix n l
  exact List.Chain'.prefix h hp

theorem chain'_drop {R : Char → Char → Prop} (l : List Char) (n : Nat)
    (h : List.Chain' R l) : List.Chain' R (l.drop n) := by
  have hs := List.drop_suffix n l
  exact List.Chain'.suffix h hs

theorem chain'_trimU {R : Char → Char → Prop} (l : List Char)
    (h : List.Chain' R l) : List.Chain' R (trimUnderscores l) := by
  unfold trimUnderscores
  have h1 : List.Chain' R (l.dropWhile isUnderscore) := by
    have hs := List.dropWhile_suffix (l := l) isUnderscore
    exact List.Chain'.suffix h hs
  have hp := List.rdropWhile_prefix isUnderscore (l.dropWhile isUnderscore)
  exact List.Chain'.prefix h1 hp

/-! Facts about the ASCII case maps. -/

theorem azPairs_facts : ∀ p ∈ azPairs,
    azPairs.find? (fun q => q.1 == p.2) = none
    ∧ forbiddenKey p.2 = false ∧ p.2 ≠ ' ' ∧ p.2 ≠ '_' ∧ p.2 ≠ '.'
    ∧ p.1 ≠ '_' ∧ p.1 ≠ '.' := by decide

theorem upperChar_upperChar (c : Char) :
    upperChar (upperChar c) = upperChar c := by
  unfold upperChar
  cases hf : azPairs.find? (fun p => p.1 == c) with
  | none => simp [hf]
  | some p =>
    have hfacts := azPairs_facts p (List.mem_of_find?_eq_some hf)
    simp [hfacts.1]

theorem upperChar_ne_underscore (c : Char) (h : c ≠ '_') :
    upperChar c ≠ '_' := by
  unfold upperChar
  cases hf : azPairs.find? (fun p => p.1 == c) with
  | none => exact h
  | some p => exact (azPairs_facts p (List.mem_of_find?_eq_some hf)).2.2.2.1

theorem upperChar_ne_space (c : Char) (h : c ≠ ' ') :
    upperChar c ≠ ' ' := by
  unfold upperChar
  cases hf : azPairs.find? (fun p => p.1 == c) with
  | none => exact h
  | some p => exact (azPairs_facts p (List.mem_of_find?_eq_some hf)).2.2.1

theorem upperChar_no_key (c : Char) (h : forbiddenKey c = false) :
    forbiddenKey (upperChar c) = false := by
  unfold upperChar
  cases hf : azPairs.find? (fun p => p.1 == c) with
  | none => exact h
  | some p => exact (azPairs_facts p (List.mem_of_find?_eq_some hf)).2.1

theorem upperChar_eq_dot_iff (c : Char) : upperChar c = '.' ↔ c = '.' := by
  unfold upperChar
  cases hf : azPairs.find? (fun p => p.1 == c) with
  | none => exact Iff.rfl
  | some p =>
    have hfacts := azPairs_facts p (List.mem_of_find?_eq_some hf)
    have hc : p.1 = c := by simpa using List.find?_some hf
    constructor
    · intro hd; exact absurd hd hfacts.2.2.2.2.1
    · intro hd; rw [← hc] at hd; exact absurd hd hfacts.2.2.2.2.2.2

theorem upperChar_dot : upperChar '.' = '.' := by decide

/-! Decomposition at the last dot. -/

theorem lastDot_decomp (l : List Char) (h : 0 ≤ lastIndexOfDot l) :
    ∃ A B, l = A ++ '.' :: B ∧ '.' ∉ B
      ∧ (A.length : Int) = lastIndexOfDot l := by
  induction l with
  | nil => simp [lastIndexOfDot] at h
  | cons c rest ih =>
    by_cases hr : 0 ≤ lastIndexOfDot rest
    · obtain ⟨A, B, hAB, hB, hAl⟩ := ih hr
      refine ⟨c :: A, B, by rw [hAB]; rfl, hB, ?_⟩
      have hlast : lastIndexOfDot (c :: rest) = lastIndexOfDot rest + 1 := by
        simp only [lastIndexOfDot]
        rw [if_pos (by omega : lastIndexOfDot rest ≥ 0)]
      rw [hlast]
      simp only [List.length_cons]
      omega
    · have hneg : lastIndexOfDot rest = -1 := lastIndexOfDot_neg rest hr
      by_cases hc : c = '.'
      · subst hc
        refine ⟨[], rest, rfl, ?_, ?_⟩
        · intro hmem
          exact hr ((lastIndexOfDot_nonneg_iff rest).mpr hmem)
        · have hlast : lastIndexOfDot ('.' :: rest) = 0 := by
            simp [lastIndexOfDot, hneg]
          rw [hlast]
          rfl
      · exfalso
        have : lastIndexOfDot (c :: rest) = -1 := by
          simp [lastIndexOfDot, hneg, hc]
        omega

/-! Structure of the edge-trim output. -/

theorem mem_edgeTrimStep (l : List Char) : ∀ c ∈ edgeTrimStep l, c ∈ l := by
  intro c hc
  unfold edgeTrimStep at hc
  by_cases hb : 0 < lastIndexOfDot l
  · rw [if_pos hb] at hc
    rcases List.mem_append.mp hc with h1 | h2
    · exact List.mem_of_mem_take (mem_trimU _ c h1)
    · exact List.mem_of_mem_drop h2
  · rw [if_neg hb] at hc
    exact mem_trimU l c hc

theorem edgeTrimStep_head_ne (l : List Char) (h : Char)
    (hh : (edgeTrimStep l).head? = some h) : h ≠ '_' := by
  unfold edgeTrimStep at hh
  by_cases hb : 0 < lastIndexOfDot l
  · rw [if_pos hb] at hh
    obtain ⟨A, B, hAB, hB, hAl⟩ := lastDot_decomp l (le_of_lt hb)
    have hiA : (lastIndexOfDot l).toNat = A.length := by omega
    rw [hiA, hAB, List.take_left, List.drop_left] at hh
    cases htA : trimUnderscores A with
    | nil =>
      rw [htA] at hh
      have hdot : '.' = h := by simpa using hh
      rw [← hdot]
      decide
    | cons h1 r1 =>
      rw [htA] at hh
      have : h1 = h := by simpa using hh
      rw [← this]
      exact trimU_head_ne A h1 (by rw [htA]; rfl)
  · rw [if_neg hb] at hh
    exact trimU_head_ne l h hh

theorem chain'_capitalizeFirst (l : List Char)
    (h : List.Chain' (fun a b => ¬(a = '_' ∧ b = '_')) l) :
    List.Chain' (fun a b => ¬(a = '_' ∧ b = '_')) (capitalizeFirst l) := by
  cases l with
  | nil => exact List.chain'_nil
  | cons c rest =>
    show List.Chain' _ (upperChar c :: rest)
    rw [List.chain'_cons'] at h ⊢
    refine ⟨?_, h.2⟩
    intro y hy
    intro hcontra
    have hc : c = '_' := by
      by_contra hcne
      exact upperChar_ne_underscore c hcne hcontra.1
    exact h.1 y hy ⟨hc, hcontra.2⟩

theorem chain'_edgeTrimStep (l : List Char)
    (h : List.Chain' (fun a b => ¬(a = '_' ∧ b = '_')) l) :
    List.Chain' (fun a b => ¬(a = '_' ∧ b = '_')) (edgeTrimStep l) := by
  unfold edgeTrimStep
  by_cases hb : 0 < lastIndexOfDot l
  · rw [if_pos hb]
    obtain ⟨A, B, hAB, hB, hAl⟩ := lastDot_decomp l (le_of_lt hb)
    have hiA : (lastIndexOfDot l).toNat = A.length := by omega
    rw [hiA, hAB, List.take_left, List.drop_left]
    apply List.Chain'.append
    · apply chain'_trimU
      rw [hAB] at h
      have hA := chain'_take (A ++ '.' :: B) A.length h
      rwa [List.take_left] at hA
    · rw [hAB] at h
      have hD := chain'_drop (A ++ '.' :: B) A.length h
      rwa [List.drop_left] at hD
    · intro x _ y hy
      have hy' : '.' = y := by simpa using hy
      intro hcontra
      rw [← hy'] at hcontra
      exact absurd hcontra.2 (by decide)
  · rw [if_neg hb]
    exact chain'_trimU l h

/-- Second-pass stability: rerunning the normalizer on an output built from a
substituted, space-free, underscore-collapsed string returns it unchanged,
except in the one excluded configuration (only dot first, trailing
underscore). -/
theorem normalize_second_pass (n3 : List Char)
    (hkeys : ∀ c ∈ n3, forbiddenKey c = false)
    (hspace : ∀ c ∈ n3, c ≠ ' ')
    (hchain : List.Chain' (fun a b => ¬(a = '_' ∧ b = '_')) n3)
    (H : ¬(lastIndexOfDot (capitalizeFirst (edgeTrimStep n3)) = 0
        ∧ (capitalizeFirst (edgeTrimStep n3)).getLast? = some '_')) :
    normalizeMediaWikiFilename (capitalizeFirst (edgeTrimStep n3))
      = capitalizeFirst (edgeTrimStep n3) := by
  cases hn4 : edgeTrimStep n3 with
  | nil => rfl
  | cons h0 r0 =>
    show normalizeMediaWikiFilename (upperChar h0 :: r0) = upperChar h0 :: r0
    have hmem_t : ∀ c ∈ upperChar h0 :: r0, forbiddenKey c = false ∧ c ≠ ' ' := by
      intro c hc
      rcases List.mem_cons.mp hc with h1 | h2
      · subst h1
        have h0mem : h0 ∈ n3 := mem_edgeTrimStep n3 h0
          (by rw [hn4]; exact List.mem_cons_self _ _)
        exact ⟨upperChar_no_key h0 (hkeys h0 h0mem),
          upperChar_ne_space h0 (hspace h0 h0mem)⟩
      · have hcn : c ∈ n3 := mem_edgeTrimStep n3 c
          (by rw [hn4]; exact List.mem_cons_of_mem h0 h2)
        exact ⟨hkeys c hcn, hspace c hcn⟩
    have hchain_t : List.Chain' (fun a b => ¬(a = '_' ∧ b = '_'))
        (upperChar h0 :: r0) := by
      have h1 := chain'_edgeTrimStep n3 hchain
      rw [hn4] at h1
      exact chain'_capitalizeFirst (h0 :: r0) h1
    have hhead_ne : upperChar h0 ≠ '_' := by
      apply upperChar_ne_underscore
      exact edgeTrimStep_head_ne n3 h0 (by rw [hn4]; rfl)
    unfold normalizeMediaWikiFilename
    rw [if_neg (List.cons_ne_nil _ _)]
    rw [substForbiddenFold_id _ (fun c hc => (hmem_t c hc).1)]
    rw [spaceToUnderscore_id _ (fun c hc => (hmem_t c hc).2)]
    rw [collapseU_id_of_chain _ hchain_t]
    have hE : edgeTrimStep (upperChar h0 :: r0) = upperChar h0 :: r0 := by
      by_cases hb : 0 < lastIndexOfDot n3
      · obtain ⟨A, B, hAB, hB, hAl⟩ := lastDot_decomp n3 (le_of_lt hb)
        have hiA : (lastIndexOfDot n3).toNat = A.length := by omega
        have hn4' : edgeTrimStep n3 = trimUnderscores A ++ '.' :: B := by
          unfold edgeTrimStep
          rw [if_pos hb, hiA, hAB, List.take_left, List.drop_left]
        have hEq : h0 :: r0 = trimUnderscores A ++ '.' :: B := by
          rw [← hn4, hn4']
        cases htA : trimUnderscores A with
        | nil =>
          rw [htA, List.nil_append] at hEq
          injection hEq with hh0 hr0
          subst hh0
          subst hr0
          rw [upperChar_dot]
          have hld := lastIndexOfDot_cons_dot r0 hB
          have hlastB : ('.' :: r0).getLast? ≠ some '_' := by
            intro hc
            apply H
            rw [hn4]
            constructor
            · show lastIndexOfDot (upperChar '.' :: r0) = 0
              rw [upperChar_dot]
              exact hld
            · show (upperChar '.' :: r0).getLast? = some '_'
              rw [upperChar_dot]
              exact hc
          rw [edgeTrim_dot_zero r0 hB]
          apply trimU_eq_self
          · intro hch hhc
            have hch' : '.' = hch := by simpa using hhc
            rw [← hch']
            decide
          · intro d hd hdeq
            rw [hdeq] at hd
            exact hlastB hd
        | cons h1 r1 =>
          rw [htA, List.cons_append] at hEq
          injection hEq with hh0 hr0
          subst hh0
          subst hr0
          show edgeTrimStep ((upperChar h0 :: r1) ++ '.' :: B)
            = (upperChar h0 :: r1) ++ '.' :: B
          rw [edgeTrim_split_pos (upperChar h0 :: r1) B hB
            (List.cons_ne_nil _ _)]
          congr 1
          apply trimU_eq_self
          · intro hch hhc
            have hch' : upperChar h0 = hch := by simpa using hhc
            rw [← hch']
            apply upperChar_ne_underscore
            exact trimU_head_ne A h0 (by rw [htA]; rfl)
          · intro d hd
            cases hr1 : r1 with
            | nil =>
              rw [hr1] at hd
              have hdd : upperChar h0 = d := by simpa using hd
              rw [← hdd]
              apply upperChar_ne_underscore
              exact trimU_head_ne A h0 (by rw [htA]; rfl)
            | cons h2 r2 =>
              rw [hr1, List.getLast?_cons_cons] at hd
              apply trimU_last_ne A d
              rw [htA, hr1, List.getLast?_cons_cons]
              exact hd
      · have hn4' : edgeTrimStep n3 = trimUnderscores n3 := by
          unfold edgeTrimStep
          rw [if_neg hb]
        have hEq : h0 :: r0 = trimUnderscores n3 := by rw [← hn4, hn4']
        by_cases hdot : '.' ∈ (upperChar h0 :: r0)
        · have hdot_n4 : '.' ∈ h0 :: r0 := by
            rcases List.mem_cons.mp hdot with h1 | h2
            · have hh0d : h0 = '.' := (upperChar_eq_dot_iff h0).mp h1.symm
              rw [hh0d]
              exact List.mem_cons_self _ _
            · exact List.mem_cons_of_mem h0 h2
          have hdot_n3 : '.' ∈ n3 := mem_trimU n3 '.' (hEq ▸ hdot_n4)
          have h0le : 0 ≤ lastIndexOfDot n3 :=
            (lastIndexOfDot_nonneg_iff n3).mpr hdot_n3
          have hzero : lastIndexOfDot n3 = 0 := by omega
          obtain ⟨A, B, hAB, hB, hAl⟩ := lastDot_decomp n3 h0le
          have hA : A = [] := by
            have hAz : (A.length : Int) = 0 := by omega
            exact List.length_eq_zero.mp (by exact_mod_cast hAz)
          subst hA
          rw [List.nil_append] at hAB
          have htr : trimUnderscores n3
              = List.rdropWhile isUnderscore ('.' :: B) := by
            unfold trimUnderscores
            rw [hAB, List.dropWhile_cons, if_neg (by decide)]
          have hEq2 : h0 :: r0 = List.rdropWhile isUnderscore ('.' :: B) := by
            rw [hEq, htr]
          obtain ⟨t2, ht2⟩ := List.rdropWhile_prefix isUnderscore ('.' :: B)
          rw [← hEq2, List.cons_append] at ht2
          injection ht2 with hh0 hrt
          subst hh0
          rw [upperChar_dot]
          have hr0B : '.' ∉ r0 := by
            intro hm
            apply hB
            rw [← hrt]
            exact List.mem_append_left t2 hm
          rw [edgeTrim_dot_zero r0 hr0B]
          apply trimU_eq_self
          · intro hch hhc
            have hch' : '.' = hch := by simpa using hhc
            rw [← hch']
            decide
          · intro d hd
            exact trimU_last_ne n3 d (by rw [← hEq]; exact hd)
        · rw [edgeTrim_no_dot _ hdot]
          apply trimU_eq_self
          · intro hch hhc
            have hch' : upperChar h0 = hch := by simpa using hhc
            rw [← hch']
            exact hhead_ne
          · intro d hd
            cases hr0 : r0 with
            | nil =>
              rw [hr0] at hd
              have hdd : upperChar h0 = d := by simpa using hd
              rw [← hdd]
              exact hhead_ne
            | cons h2 r2 =>
              rw [hr0, List.getLast?_cons_cons] at hd
              apply trimU_last_ne n3 d
              rw [← hEq, hr0, List.getLast?_cons_cons]
              exact hd
    rw [hE]
    show upperChar (upperChar h0) :: r0 = upperChar h0 :: r0
    rw [upperChar_upperChar]

/-- C6 counterexample: the normalizer is not idempotent on `"_._"`: the first
pass empties the all-underscore name and returns `"._"`, whose only dot now
sits at index 0, so the second pass takes the whole-string trim branch and
removes the trailing underscore, returning `"."`. -/
theorem normalizeMediaWikiFilename_not_idempotent :
    normalizeMediaWikiFilename (normalizeMediaWikiFilename "_._".data)
      ≠ normalizeMediaWikiFilename "_._".data := by decide

/-- C6 (amended): normalization is idempotent for every input except those
whose normalized form has its only `.` as the first character and ends with
an underscore (there the second pass trims that trailing underscore). -/
theorem normalizeMediaWikiFilename_idempotent_amended (s : List Char)
    (H : ¬(lastIndexOfDot (normalizeMediaWikiFilename s) = 0
        ∧ (normalizeMediaWikiFilename s).getLast? = some '_')) :
    normalizeMediaWikiFilename (normalizeMediaWikiFilename s)
      = normalizeMediaWikiFilename s := by
  by_cases hs : s = []
  · subst hs; rfl
  · have hunfold : normalizeMediaWikiFilename s
        = capitalizeFirst (edgeTrimStep (collapseU (spaceToUnderscore
          (substForbiddenFold s)))) := by
      unfold normalizeMediaWikiFilename
      rw [if_neg hs]
    rw [hunfold] at H ⊢
    apply normalize_second_pass
    · intro c hc
      exact mem_spaceToUnderscore_no_key _ (substForbiddenFold_no_key s) c
        (mem_collapseU _ c hc)
    · intro c hc
      exact mem_spaceToUnderscore_ne_space _ c (mem_collapseU _ c hc)
    · exact collapseU_chain _
    · exact H

/-- C6 witness: idempotence applied at `"my image.jpg"`, with the side
condition discharged by evaluation. -/
theorem normalizeMediaWikiFilename_idempotent_amended_witness :
    normalizeMediaWikiFilename
        (normalizeMediaWikiFilename "my image.jpg".data)
      = normalizeMediaWikiFilename "my image.jpg".data :=
  normalizeMediaWikiFilename_idempotent_amended "my image.jpg".data (by decide)

end Catapult
